import Mathlib

/-!
Verification development for the BehaviorNet runtime core
(src/runtime: core/TokenQueue, core/Place, core/Net, execution/ActionContext,
execution/ActionExecutor, places/*, runtime/RuntimeController).

The C++ sources are shallowly embedded as executable Lean definitions:
mutation becomes explicit state passing, wall-clock instants become explicit
natural-number parameters, exceptions become Option results, and the
string form of a place reference (with an optional suffix after a double
colon) is represented in its parsed form as a PlaceRef, mirroring the output
of bnet::core::parseSubplace.  Iteration over the C++ unordered containers is
modelled by association lists in insertion order; std::sort in
Net::getTransitionsByPriority is modelled by a stable insertion sort, a
particular refinement of the unspecified tie order of the unstable sort.
Ghost fields (invocation counters and event logs) are added as pure
instrumentation: they record events without influencing any behaviour.
-/

namespace BNet

/-- Token (bnet::Token): its actor map and JSON data map are abstracted into a
single opaque payload, which none of the embedded runtime functions inspect. -/
structure Token where
  data : Nat := 0
deriving DecidableEq, Repr

/-- ActionResult::Status (include/bnet/ActionResult.hpp). -/
inductive Status where
  | success
  | failure
  | inProgress
  | error
deriving DecidableEq, Repr

/-- ActionResult (include/bnet/ActionResult.hpp): the status together with its
message (the failure message or the carried error message). -/
structure ActionResult where
  status : Status := Status.success
  message : String := ""
deriving DecidableEq, Repr

/-- ActionResult::errorMessage static constructor. -/
def ActionResult.errorMessageResult (msg : String) : ActionResult :=
  { status := Status.error, message := msg }

/-- TokenQueue::Entry (include/bnet/core/TokenQueue.hpp): the arrival instant
is omitted because entries are kept in FIFO arrival order in the list. -/
structure Entry where
  id : Nat
  token : Token
  locked : Bool := false
deriving DecidableEq, Repr

/-- TokenQueue (include/bnet/core/TokenQueue.hpp): a FIFO list of entries plus
the next id to allocate; nextId_ is initialised to 1 in the source. -/
structure TokenQueue where
  queue : List Entry := []
  nextId : Nat := 1
deriving DecidableEq, Repr

/-- TokenQueue::push (src/core/TokenQueue.cpp): allocates nextId_, appends the
entry unlocked, returns the id. -/
def TokenQueue.push (q : TokenQueue) (t : Token) : TokenQueue × Nat :=
  (⟨q.queue ++ [⟨q.nextId, t, false⟩], q.nextId + 1⟩, q.nextId)

/-- Helper for TokenQueue::pop: removes the first unlocked entry of the list. -/
def popFirstUnlocked : List Entry → Option (Entry × List Entry)
  | [] => none
  | e :: rest =>
    if e.locked then
      match popFirstUnlocked rest with
      | some (f, rest') => some (f, e :: rest')
      | none => none
    else
      some (e, rest)

/-- TokenQueue::pop (src/core/TokenQueue.cpp): removes and returns the oldest
unlocked entry, or none when every entry is locked or the queue is empty. -/
def TokenQueue.pop (q : TokenQueue) : TokenQueue × Option (Nat × Token) :=
  match popFirstUnlocked q.queue with
  | some (e, rest) => (⟨rest, q.nextId⟩, some (e.id, e.token))
  | none => (q, none)

/-- TokenQueue::size. -/
def TokenQueue.size (q : TokenQueue) : Nat := q.queue.length

/-- TokenQueue::availableCount: number of unlocked entries. -/
def TokenQueue.availableCount (q : TokenQueue) : Nat :=
  (q.queue.filter (fun e => !e.locked)).length

/-- TokenQueue::empty. -/
def TokenQueue.isEmpty (q : TokenQueue) : Bool := q.queue.isEmpty

/-- TokenQueue::remove (by id): removes the first entry with the given id. -/
def removeById : List Entry → Nat → Option (Token × List Entry)
  | [], _ => none
  | e :: rest, i =>
    if e.id = i then some (e.token, rest)
    else
      match removeById rest i with
      | some (t, rest') => some (t, e :: rest')
      | none => none

/-- TokenQueue::remove (src/core/TokenQueue.cpp). -/
def TokenQueue.remove (q : TokenQueue) (i : Nat) : TokenQueue × Option Token :=
  match removeById q.queue i with
  | some (t, rest) => (⟨rest, q.nextId⟩, some t)
  | none => (q, none)

/-- TokenQueue::lock: sets the flag on the first entry with the given id;
an unknown id is silently ignored. -/
def TokenQueue.lockId (q : TokenQueue) (i : Nat) : TokenQueue :=
  ⟨q.queue.map (fun e => if e.id = i then { e with locked := true } else e), q.nextId⟩

/-- TokenQueue::unlock. -/
def TokenQueue.unlockId (q : TokenQueue) (i : Nat) : TokenQueue :=
  ⟨q.queue.map (fun e => if e.id = i then { e with locked := false } else e), q.nextId⟩

/-- TokenQueue::getAllTokens: every entry (locked included) as an (id, data)
pair, in queue order. -/
def TokenQueue.getAllTokens (q : TokenQueue) : List (Nat × Nat) :=
  q.queue.map (fun e => (e.id, e.token.data))

/-- Subplace (include/bnet/core/Place.hpp). -/
inductive Subplace where
  | noSub
  | main
  | inExecution
  | success
  | failure
  | error
deriving DecidableEq, Repr

/-- Place (include/bnet/core/Place.hpp): the five sub-queues are stored as
always-present fields; as in the source they are only consulted behind the
hasSubplaces flag.  Each queue carries its own independent id counter. -/
structure Place where
  id : String
  capacity : Option Nat := none
  tokens : TokenQueue := {}
  hasSubplaces : Bool := false
  subMain : TokenQueue := {}
  subInExecution : TokenQueue := {}
  subSuccess : TokenQueue := {}
  subFailure : TokenQueue := {}
  subError : TokenQueue := {}
deriving DecidableEq, Repr

/-- Place::subplace: for Subplace::None the source returns the main queue. -/
def Place.subplace (p : Place) : Subplace → TokenQueue
  | Subplace.noSub => p.tokens
  | Subplace.main => p.subMain
  | Subplace.inExecution => p.subInExecution
  | Subplace.success => p.subSuccess
  | Subplace.failure => p.subFailure
  | Subplace.error => p.subError

/-- Functional update of the queue selected by Place::subplace. -/
def Place.setSubplace (p : Place) : Subplace → TokenQueue → Place
  | Subplace.noSub, q => { p with tokens := q }
  | Subplace.main, q => { p with subMain := q }
  | Subplace.inExecution, q => { p with subInExecution := q }
  | Subplace.success, q => { p with subSuccess := q }
  | Subplace.failure, q => { p with subFailure := q }
  | Subplace.error, q => { p with subError := q }

/-- Queue-selection pattern shared by Net::isEnabled, Net::fire and
RuntimeController::processNewTokensAtPlaces: the sub-queue when a suffix was
given and the place has sub-queues enabled, the main queue otherwise. -/
def Place.selectQueue (p : Place) (sub : Subplace) : TokenQueue :=
  if sub ≠ Subplace.noSub ∧ p.hasSubplaces then p.subplace sub else p.tokens

/-- Functional update matching Place.selectQueue. -/
def Place.storeQueue (p : Place) (sub : Subplace) (q : TokenQueue) : Place :=
  if sub ≠ Subplace.noSub ∧ p.hasSubplaces then p.setSubplace sub q
  else { p with tokens := q }

/-- Place::addToken (src/core/Place.cpp): throws a ResourceError when a
capacity is set and the main queue size has reached it (the throw is modelled
as none, leaving the place unchanged in the caller); otherwise pushes onto the
main queue and returns the allocated id. -/
def Place.addToken (p : Place) (t : Token) : Option (Place × Nat) :=
  match p.capacity with
  | some cap =>
    if cap ≤ p.tokens.size then none
    else
      let (q, i) := p.tokens.push t
      some ({ p with tokens := q }, i)
  | none =>
    let (q, i) := p.tokens.push t
    some ({ p with tokens := q }, i)

/-- Place::canAcceptToken. -/
def Place.canAcceptToken (p : Place) : Bool :=
  match p.capacity with
  | none => true
  | some cap => p.tokens.size < cap

/-- Place::hasAvailableToken. -/
def Place.hasAvailableToken (p : Place) : Bool :=
  0 < p.tokens.availableCount

/-- Place::removeToken (no argument): pop of the main queue. -/
def Place.removeToken (p : Place) : Place × Option (Nat × Token) :=
  let (q, r) := p.tokens.pop
  ({ p with tokens := q }, r)

/-- Place::tokenCount: main queue size plus, when sub-queues are enabled, the
sizes of the five sub-queues. -/
def Place.tokenCount (p : Place) : Nat :=
  p.tokens.size +
    (if p.hasSubplaces then
      p.subMain.size + p.subInExecution.size + p.subSuccess.size +
        p.subFailure.size + p.subError.size
    else 0)

/-- Place::enableSubplaces (idempotent). -/
def Place.enableSubplaces (p : Place) : Place :=
  if p.hasSubplaces then p else { p with hasSubplaces := true }

/-- Parsed form of a place reference string ("id" or "id::suffix"), the output
of bnet::core::parseSubplace. -/
structure PlaceRef where
  placeId : String
  sub : Subplace := Subplace.noSub
deriving DecidableEq, Repr

/-- Arc (include/bnet/core/Arc.hpp): the direction is implicit in the input or
output list holding the arc; weight_ defaults to 1. -/
structure Arc where
  ref : PlaceRef
  weight : Nat := 1
  tokenFilter : Option String := none
deriving DecidableEq, Repr

/-- Transition (include/bnet/core/Transition.hpp). -/
structure Transition where
  id : String
  priority : Int := 1
  inputArcs : List Arc := []
  outputArcs : List Arc := []
  lastFiredEpoch : Nat := 0
deriving DecidableEq, Repr

/-- Net (include/bnet/core/Net.hpp): the unordered id-keyed containers are
modelled as lists in insertion order with lookup by id. -/
structure Net where
  places : List Place := []
  transitions : List Transition := []
deriving DecidableEq, Repr

/-- Net::getPlace / Net::resolvePlace place lookup by base id. -/
def Net.getPlace? (n : Net) (i : String) : Option Place :=
  n.places.find? (fun p => p.id == i)

/-- Write back a mutated place (the source mutates it through a pointer). -/
def Net.setPlace (n : Net) (p : Place) : Net :=
  { n with places := n.places.map (fun q => if q.id == p.id then p else q) }

/-- Record the epoch on the fired transition (Transition::setLastFiredEpoch
called at the end of Net::fire). -/
def Net.setTransitionEpoch (n : Net) (tid : String) (epoch : Nat) : Net :=
  { n with
    transitions := n.transitions.map
      (fun t => if t.id == tid then { t with lastFiredEpoch := epoch } else t) }

/-- Net::isEnabled (src/core/Net.cpp): every input arc's referenced place must
exist and its selected queue must have at least weight unlocked tokens.  As in
the source, a token filter does not change the check (the actor-type test is a
TODO there). -/
def Net.isEnabled (n : Net) (t : Transition) : Bool :=
  t.inputArcs.all (fun arc =>
    match n.getPlace? arc.ref.placeId with
    | none => false
    | some place =>
      let queue := place.selectQueue arc.ref.sub
      decide (arc.weight ≤ queue.availableCount))

/-- FireResult (include/bnet/core/Net.hpp). -/
structure FireResult where
  success : Bool := false
  consumedTokens : List (Nat × Token) := []
  errorMessage : String := ""
deriving DecidableEq, Repr

/-- Inner loop of the consume phase of Net::fire: weight consecutive pops from
one queue, accumulating consumed (id, token) pairs; reports whether every pop
succeeded, keeping the pops already performed either way. -/
def popWeight (q : TokenQueue) (w : Nat) (acc : List (Nat × Token)) :
    TokenQueue × List (Nat × Token) × Bool :=
  match w with
  | 0 => (q, acc, true)
  | w' + 1 =>
    match q.pop with
    | (q', some it) => popWeight q' w' (acc ++ [it])
    | (q', none) => (q', acc, false)

/-- Consume phase of Net::fire (src/core/Net.cpp, input-arc loop): for each
input arc in declaration order, pop weight tokens from the selected queue.  On
a failed pop the loop stops; the pops already performed are NOT rolled back
(the mutated queues stay mutated and the consumed tokens are only handed back
in the FireResult). -/
def consumeInputs (n : Net) (arcs : List Arc) (acc : List (Nat × Token)) :
    Net × List (Nat × Token) × Bool :=
  match arcs with
  | [] => (n, acc, true)
  | arc :: rest =>
    match n.getPlace? arc.ref.placeId with
    | none => (n, acc, false)
    | some place =>
      let q := place.selectQueue arc.ref.sub
      let r := popWeight q arc.weight acc
      let n' := n.setPlace (place.storeQueue arc.ref.sub r.1)
      if r.2.2 then consumeInputs n' rest r.2.1 else (n', r.2.1, false)

/-- Inner loop of the produce phase of Net::fire: pushes up to weight tokens
taken in order from the remaining consumed-token list. -/
def pushWeight (q : TokenQueue) (w : Nat) (toks : List Token) :
    TokenQueue × List Token :=
  match w, toks with
  | 0, ts => (q, ts)
  | _ + 1, [] => (q, [])
  | w' + 1, t :: ts => pushWeight (q.push t).1 w' ts

/-- Produce phase of Net::fire (output-arc loop): for each output arc in
declaration order push up to weight tokens drawn in order from the consumed
list; an output arc naming a missing place aborts with an error. -/
def produceOutputs (n : Net) (arcs : List Arc) (toks : List Token) : Net × Bool :=
  match arcs with
  | [] => (n, true)
  | arc :: rest =>
    match n.getPlace? arc.ref.placeId with
    | none => (n, false)
    | some place =>
      let q := place.selectQueue arc.ref.sub
      let r := pushWeight q arc.weight toks
      produceOutputs (n.setPlace (place.storeQueue arc.ref.sub r.1)) rest r.2

/-- Net::fire (src/core/Net.cpp): check enablement, consume inputs, produce
outputs, record the epoch.  A failure after partial consumption returns with
the pops kept in the net state and no rollback. -/
def Net.fire (n : Net) (t : Transition) (epoch : Nat) : Net × FireResult :=
  if ¬ n.isEnabled t then
    (n, { errorMessage := "Transition not enabled" })
  else
    let c := consumeInputs n t.inputArcs []
    if ¬ c.2.2 then
      (c.1, { consumedTokens := c.2.1, errorMessage := "Failed to consume token" })
    else
      let o := produceOutputs c.1 t.outputArcs (c.2.1.map (fun it => it.2))
      if ¬ o.2 then
        (o.1, { consumedTokens := c.2.1, errorMessage := "Output place not found" })
      else
        (o.1.setTransitionEpoch t.id epoch,
          { success := true, consumedTokens := c.2.1 })

/-- Comparator of Net::getTransitionsByPriority (src/core/Net.cpp): higher
priority first; tie-break by smaller lastFiredEpoch. -/
def transBefore (a b : Transition) : Bool :=
  if a.priority ≠ b.priority then decide (b.priority < a.priority)
  else decide (a.lastFiredEpoch < b.lastFiredEpoch)

/-- Stable insertion step for the transition sort. -/
def insertTrans (t : Transition) : List Transition → List Transition
  | [] => [t]
  | u :: rest => if transBefore t u then t :: u :: rest else u :: insertTrans t rest

/-- Net::getTransitionsByPriority: std::sort under the comparator, modelled by
a stable insertion sort (one refinement of the unspecified tie order). -/
def sortTransitions : List Transition → List Transition
  | [] => []
  | t :: rest => insertTrans t (sortTransitions rest)

/-- Net::getTransitionsByPriority on the model net. -/
def Net.getTransitionsByPriority (n : Net) : List Transition :=
  sortTransitions n.transitions

/-- RetryPolicy (include/bnet/execution/RetryPolicy.hpp) with its defaults;
durations are in milliseconds. -/
structure RetryPolicy where
  maxRetries : Nat := 3
  timeout : Nat := 30000
  retryDelay : Nat := 1000
  retryOnError : Bool := true
  retryOnFailure : Bool := false
deriving DecidableEq, Repr

/-- RetryPolicy::noRetry. -/
def RetryPolicy.noRetry : RetryPolicy :=
  { maxRetries := 0, timeout := 30000, retryDelay := 0,
    retryOnError := false, retryOnFailure := false }

/-- ActionState (include/bnet/execution/ActionContext.hpp). -/
inductive ActionState where
  | pending
  | running
  | completed
  | failed
  | error
  | timedOut
  | cancelled
deriving DecidableEq, Repr

/-- ActionInvoker (include/bnet/execution/ActionExecutor.hpp): takes the token
by mutable reference and returns an ActionResult, modelled as a function from
the token to the result and the mutated token.  The actor pointer argument is
dropped: every invoker relevant here receives the null actor that
ActionPlace::onTokenEnter passes. -/
def Invoker := Token → ActionResult × Token

/-- ActionContext (include/bnet/execution/ActionContext.hpp); instants are
naturals in milliseconds. -/
structure ActionContext where
  id : Nat
  actionName : String
  token : Token
  policy : RetryPolicy
  state : ActionState := ActionState.pending
  lastResult : ActionResult := {}
  attemptCount : Nat := 0
  startTime : Nat := 0
  retryTime : Nat := 0
  callbackInvoked : Bool := false
  hasCallback : Bool := true
deriving DecidableEq, Repr

/-- ActionContext::isTimedOut (src/execution/ActionContext.cpp): only a
Running context can be timed out; elapsed time since start is compared against
the policy timeout. -/
def ActionContext.isTimedOut (ctx : ActionContext) (now : Nat) : Bool :=
  if ctx.state ≠ ActionState.running then false
  else decide (ctx.policy.timeout ≤ now - ctx.startTime)

/-- ActionContext::canRetry (src/execution/ActionContext.cpp): false once
attemptCount has reached maxRetries + 1; otherwise true exactly when the state
is Error with retryOnError or Failed with retryOnFailure. -/
def ActionContext.canRetry (ctx : ActionContext) : Bool :=
  if ctx.policy.maxRetries + 1 ≤ ctx.attemptCount then false
  else if ctx.state = ActionState.error ∧ ctx.policy.retryOnError then true
  else if ctx.state = ActionState.failed ∧ ctx.policy.retryOnFailure then true
  else false

/-- ActionContext::start: to Running, record the start instant, bump the
attempt count. -/
def ActionContext.start (ctx : ActionContext) (now : Nat) : ActionContext :=
  { ctx with state := ActionState.running, startTime := now,
             attemptCount := ctx.attemptCount + 1 }

/-- ActionContext::update: store the result and fold its status into the
state; InProgress leaves the state unchanged. -/
def ActionContext.update (ctx : ActionContext) (res : ActionResult) : ActionContext :=
  let ctx := { ctx with lastResult := res }
  match res.status with
  | Status.success => { ctx with state := ActionState.completed }
  | Status.failure => { ctx with state := ActionState.failed }
  | Status.error => { ctx with state := ActionState.error }
  | Status.inProgress => ctx

/-- ActionContext::scheduleRetry: back to Pending with the retry instant set
to now plus the retry delay. -/
def ActionContext.scheduleRetry (ctx : ActionContext) (now : Nat) : ActionContext :=
  { ctx with state := ActionState.pending, retryTime := now + ctx.policy.retryDelay }

/-- ActionContext::isReadyForRetry. -/
def ActionContext.isReadyForRetry (ctx : ActionContext) (now : Nat) : Bool :=
  if ctx.state ≠ ActionState.pending then false
  else decide (ctx.retryTime ≤ now)

/-- ActionContext::cancel. -/
def ActionContext.cancel (ctx : ActionContext) : ActionContext :=
  { ctx with state := ActionState.cancelled }

/-- ActionExecutor::processAction (src/execution/ActionExecutor.cpp), with the
clock passed explicitly; the returned flag records whether the invoker was
called during this step (ghost information used by the instrumentation). -/
def processAction (now : Nat) (inv : Option Invoker) (ctx : ActionContext) :
    ActionContext × Bool :=
  match ctx.state with
  | ActionState.pending =>
    if ctx.isReadyForRetry now ∨ ctx.attemptCount = 0 then
      let ctx := ctx.start now
      match inv with
      | some f =>
        let (res, tok) := f ctx.token
        let ctx := ActionContext.update { ctx with token := tok } res
        if (ctx.state = ActionState.failed ∨ ctx.state = ActionState.error) ∧
            ctx.canRetry then
          (ctx.scheduleRetry now, true)
        else (ctx, true)
      | none => (ctx, false)
    else (ctx, false)
  | ActionState.running =>
    if ctx.isTimedOut now then
      let ctx := ctx.update (ActionResult.errorMessageResult "Action timed out")
      if ctx.canRetry then (ctx.scheduleRetry now, false) else (ctx, false)
    else
      match inv with
      | some f =>
        let (res, tok) := f ctx.token
        let ctx := ActionContext.update { ctx with token := tok } res
        if (ctx.state = ActionState.failed ∨ ctx.state = ActionState.error) ∧
            ctx.canRetry then
          (ctx.scheduleRetry now, true)
        else (ctx, true)
      | none => (ctx, false)
  | _ => (ctx, false)

/-- Completion test used by ActionExecutor::poll after the state-machine step:
Completed, Cancelled, TimedOut, or Failed/Error with no retry remaining. -/
def completionDue (ctx : ActionContext) : Bool :=
  ctx.state = ActionState.completed ∨ ctx.state = ActionState.cancelled ∨
    ctx.state = ActionState.timedOut ∨
    ((ctx.state = ActionState.failed ∨ ctx.state = ActionState.error) ∧
      ¬ ctx.canRetry)

/-- In-flight record of the executor (ActionExecutor::InFlightAction).  The
completion callback that ActionPlace::onTokenEnter installs is represented by
the id of the action place it routes to (callbackPlace); invokerCalls is ghost
instrumentation counting invoker invocations for this record. -/
structure InFlightAction where
  context : ActionContext
  invoker : Option Invoker
  callbackPlace : Option String := none
  invokerCalls : Nat := 0

/-- Ghost record of an executed completion callback (one callback_ call). -/
structure CallbackEvent where
  id : Nat
  result : ActionResult
  token : Token
  place : Option String
deriving DecidableEq, Repr

/-- Ghost record of a context removed by poll after completion; it keeps the
retry cap, the invoker and the instrumentation counters of the removed
record so that per-action bounds remain expressible after removal. -/
structure CompletedRecord where
  id : Nat
  state : ActionState
  attemptCount : Nat
  invokerCalls : Nat
  hasCallback : Bool
  maxRetries : Nat
  invoker : Option Invoker

/-- ActionExecutor (include/bnet/execution/ActionExecutor.hpp): the in-flight
map becomes an association list in insertion order; nextId_ starts at 1.
emittedCallbacks, completedLog and totalInvokerCalls are ghost logs. -/
structure ActionExecutor where
  inFlight : List InFlightAction := []
  nextId : Nat := 1
  emittedCallbacks : List CallbackEvent := []
  completedLog : List CompletedRecord := []
  totalInvokerCalls : Nat := 0

/-- ActionExecutor::startAction: allocates the id and inserts a Pending
context. -/
def ActionExecutor.startAction (ex : ActionExecutor) (actionName : String)
    (token : Token) (inv : Option Invoker) (policy : RetryPolicy)
    (callbackPlace : Option String) (hasCallback : Bool) :
    ActionExecutor × Nat :=
  let ctx : ActionContext :=
    { id := ex.nextId, actionName := actionName, token := token,
      policy := policy, hasCallback := hasCallback }
  ({ ex with
      inFlight := ex.inFlight ++
        [{ context := ctx, invoker := inv, callbackPlace := callbackPlace }],
      nextId := ex.nextId + 1 },
    ex.nextId)

/-- First phase of ActionExecutor::poll: run the state-machine step on every
in-flight record and collect the ids whose contexts are due for completion. -/
def pollPhase1 (now : Nat) (records : List InFlightAction) :
    List InFlightAction × List Nat × Nat :=
  match records with
  | [] => ([], [], 0)
  | r :: rest =>
    let (ctx', called) := processAction now r.invoker r.context
    let r' := { r with context := ctx',
                       invokerCalls := r.invokerCalls + (if called then 1 else 0) }
    let (rest', ids, calls) := pollPhase1 now rest
    (r' :: rest', (if completionDue ctx' then [ctx'.id] else []) ++ ids,
      (if called then 1 else 0) + calls)

/-- ActionContext::invokeCallback (src/execution/ActionContext.cpp): a no-op
when already invoked or when no callback is installed; otherwise marks the
flag and performs the single callback_ call, recorded as a CallbackEvent. -/
def invokeCallback (ctx : ActionContext) : ActionContext × Option CallbackEvent :=
  if ctx.callbackInvoked ∨ ¬ ctx.hasCallback then (ctx, none)
  else
    ({ ctx with callbackInvoked := true },
      some { id := ctx.id, result := ctx.lastResult, token := ctx.token,
             place := none })

/-- Second phase of ActionExecutor::poll: for each completed id, invoke the
callback and erase the record, appending ghost records. -/
def pollPhase2 (ex : ActionExecutor) (events : List CallbackEvent) :
    List Nat → ActionExecutor × List CallbackEvent
  | [] => (ex, events)
  | i :: rest =>
    match ex.inFlight.find? (fun r => r.context.id = i) with
    | none => pollPhase2 ex events rest
    | some r =>
      let (ctx', ev) := invokeCallback r.context
      let ev := ev.map (fun e => { e with place := r.callbackPlace })
      let ex :=
        { ex with
          inFlight := ex.inFlight.filter (fun r' => r'.context.id ≠ i),
          emittedCallbacks := ex.emittedCallbacks ++ ev.toList,
          completedLog := ex.completedLog ++
            [{ id := ctx'.id, state := ctx'.state,
               attemptCount := ctx'.attemptCount,
               invokerCalls := r.invokerCalls,
               hasCallback := ctx'.hasCallback,
               maxRetries := ctx'.policy.maxRetries,
               invoker := r.invoker }] }
      pollPhase2 ex (events ++ ev.toList) rest

/-- ActionExecutor::poll (src/execution/ActionExecutor.cpp): the state-machine
pass followed by callback invocation and removal of the completed records; the
events of this poll are returned in order for the caller. -/
def ActionExecutor.poll (ex : ActionExecutor) (now : Nat) :
    ActionExecutor × List CallbackEvent :=
  let (records, completedIds, calls) := pollPhase1 now ex.inFlight
  let ex := { ex with inFlight := records,
                      totalInvokerCalls := ex.totalInvokerCalls + calls }
  pollPhase2 ex [] completedIds

/-- ActionExecutor::cancel. -/
def ActionExecutor.cancelId (ex : ActionExecutor) (i : Nat) : ActionExecutor :=
  { ex with
    inFlight := ex.inFlight.map
      (fun r => if r.context.id = i then { r with context := r.context.cancel } else r) }

/-- ActionExecutor::cancelAll. -/
def ActionExecutor.cancelAll (ex : ActionExecutor) : ActionExecutor :=
  { ex with inFlight := ex.inFlight.map (fun r => { r with context := r.context.cancel }) }

/-- ActionExecutor::inFlightCount. -/
def ActionExecutor.inFlightCount (ex : ActionExecutor) : Nat :=
  ex.inFlight.length

/-- PlaceType variant of a config entry (include/bnet/config/ConfigTypes.hpp). -/
inductive PlaceKind where
  | plain
  | entrypoint
  | resourcePool
  | waitWithTimeout
  | action
  | exitLogger
deriving DecidableEq, Repr

/-- Parameters of a config place entry; only the fields the runtime consumes
are kept (ActionPlaceParams.failureAsError and errorToGlobalHandler are parsed
but never read by the controller, and EntrypointParams.newActors is used only
by external actor factories).  Durations are in milliseconds. -/
inductive PlaceParams where
  | noParams
  | resourcePoolParams (resourceId : String) (initialAvailability : Nat)
  | waitParams (timeout : Nat)
  | actionParams (actionId : String) (retries : Nat) (timeoutPerTry : Nat)
deriving DecidableEq, Repr

/-- PlaceConfig (include/bnet/config/ConfigTypes.hpp). -/
structure PlaceConfig where
  id : String
  kind : PlaceKind := PlaceKind.plain
  params : PlaceParams := PlaceParams.noParams
deriving DecidableEq, Repr

/-- OutputArc of a transition config; the reference is kept in parsed form. -/
structure OutputArcConfig where
  toRef : PlaceRef
  tokenFilter : Option String := none
deriving DecidableEq, Repr

/-- TransitionConfig (include/bnet/config/ConfigTypes.hpp). -/
structure TransitionConfig where
  fromRefs : List PlaceRef := []
  toArcs : List OutputArcConfig := []
  priority : Option Int := none
deriving DecidableEq, Repr

/-- NetConfig: the places and transitions consumed by
RuntimeController::createNetFromConfig (actors and actions metadata are not
consumed by the controller). -/
structure NetConfig where
  places : List PlaceConfig := []
  transitions : List TransitionConfig := []
deriving DecidableEq, Repr

/-- ActionConfig held by an ActionPlace (include/bnet/places/ActionPlace.hpp);
the actorType string is not consumed by the embedded paths. -/
structure ActionPlaceConfig where
  actionName : String
  retryPolicy : RetryPolicy
deriving DecidableEq, Repr

/-- State of the PlaceType behaviour bound to a place
(EntrypointPlace, ExitLoggerPlace, PlainPlace, ResourcePoolPlace,
WaitWithTimeoutPlace, ActionPlace). -/
inductive PlaceTypeState where
  | plain
  | entrypoint (validator : Option (Token → Bool)) (injectedCount : Nat)
  | exitLogger (exitCount : Nat)
  | resourcePool (poolSize : Nat)
  | waitWithTimeout (timeout : Nat) (condition : Option (Token → Bool))
      (waitingTokens : List (Nat × Nat))
  | actionPlace (config : ActionPlaceConfig) (invoker : Option Invoker)

/-- RuntimeStats (include/bnet/runtime/RuntimeController.hpp); the two time
points are omitted. -/
structure RuntimeStats where
  epoch : Nat := 0
  transitionsFired : Nat := 0
  tokensProcessed : Nat := 0
deriving DecidableEq, Repr

/-- RuntimeController (include/bnet/runtime/RuntimeController.hpp): the net,
the executor, the id-keyed behaviour map and the action-invoker registry as
association lists in insertion order, and the stats.  firedLog is a ghost log
of the onTransitionFired events of the run. -/
structure RuntimeController where
  net : Net := {}
  executor : ActionExecutor := {}
  placeTypes : List (String × PlaceTypeState) := []
  actionInvokers : List (String × Invoker) := []
  stats : RuntimeStats := {}
  firedLog : List Transition := []

/-- RuntimeController::registerAction: plain upsert into the invoker registry
(actionInvokers_[actionId] = invoker); nothing else is touched. -/
def RuntimeController.registerAction (c : RuntimeController) (actionId : String)
    (inv : Invoker) : RuntimeController :=
  { c with
    actionInvokers :=
      if c.actionInvokers.any (fun kv => kv.1 == actionId) then
        c.actionInvokers.map
          (fun kv => if kv.1 == actionId then (kv.1, inv) else kv)
      else c.actionInvokers ++ [(actionId, inv)] }

/-- Lookup in the invoker registry (actionInvokers_.find). -/
def RuntimeController.findInvoker (c : RuntimeController) (actionId : String) :
    Option Invoker :=
  (c.actionInvokers.find? (fun kv => kv.1 == actionId)).map (fun kv => kv.2)

/-- RuntimeController::createPlaceType (src/runtime/RuntimeController.cpp):
builds the behaviour for one config entry.  The ActionPlace and
WaitWithTimeoutPlace constructors enable sub-queues on their place; an
ActionPlace receives an invoker only if one is registered at creation time;
a ResourcePoolPlace pre-populates its place with empty tokens. -/
def RuntimeController.createPlaceType (c : RuntimeController)
    (pc : PlaceConfig) (place : Place) : RuntimeController :=
  match pc.kind, pc.params with
  | PlaceKind.entrypoint, _ =>
    { c with placeTypes := c.placeTypes ++ [(pc.id, PlaceTypeState.entrypoint none 0)] }
  | PlaceKind.resourcePool, PlaceParams.resourcePoolParams _ n =>
    let place := (List.range n).foldl
      (fun p _ => match p.addToken {} with
        | some (p', _) => p'
        | none => p) place
    { c with net := c.net.setPlace place,
             placeTypes := c.placeTypes ++ [(pc.id, PlaceTypeState.resourcePool n)] }
  | PlaceKind.resourcePool, _ =>
    { c with placeTypes := c.placeTypes ++ [(pc.id, PlaceTypeState.resourcePool 0)] }
  | PlaceKind.waitWithTimeout, PlaceParams.waitParams timeout =>
    { c with net := c.net.setPlace place.enableSubplaces,
             placeTypes := c.placeTypes ++
               [(pc.id, PlaceTypeState.waitWithTimeout timeout none [])] }
  | PlaceKind.waitWithTimeout, _ =>
    { c with net := c.net.setPlace place.enableSubplaces,
             placeTypes := c.placeTypes ++
               [(pc.id, PlaceTypeState.waitWithTimeout 0 none [])] }
  | PlaceKind.action, PlaceParams.actionParams actionId retries timeoutPerTry =>
    let cfg : ActionPlaceConfig :=
      { actionName := actionId,
        retryPolicy := { RetryPolicy.mk 3 30000 1000 true false with
                         maxRetries := retries, timeout := timeoutPerTry } }
    let inv := c.findInvoker actionId
    { c with net := c.net.setPlace place.enableSubplaces,
             placeTypes := c.placeTypes ++
               [(pc.id, PlaceTypeState.actionPlace cfg inv)] }
  | PlaceKind.action, _ =>
    { c with net := c.net.setPlace place.enableSubplaces,
             placeTypes := c.placeTypes ++
               [(pc.id, PlaceTypeState.actionPlace
                 { actionName := "", retryPolicy := {} } none)] }
  | PlaceKind.exitLogger, _ =>
    { c with placeTypes := c.placeTypes ++ [(pc.id, PlaceTypeState.exitLogger 0)] }
  | PlaceKind.plain, _ =>
    { c with placeTypes := c.placeTypes ++ [(pc.id, PlaceTypeState.plain)] }

/-- First loop of RuntimeController::createNetFromConfig: add a bare place per
config entry. -/
def RuntimeController.addPlacesPhase (c : RuntimeController)
    (pcs : List PlaceConfig) : RuntimeController :=
  pcs.foldl
    (fun c pc => { c with net := { c.net with places := c.net.places ++ [{ id := pc.id }] } })
    c

/-- Second loop of RuntimeController::createNetFromConfig: create the
behaviour of each configured place. -/
def RuntimeController.createTypesPhase (c : RuntimeController)
    (pcs : List PlaceConfig) : RuntimeController :=
  pcs.foldl
    (fun c pc =>
      match c.net.getPlace? pc.id with
      | some place => c.createPlaceType pc place
      | none => c)
    c

/-- Third loop of RuntimeController::createNetFromConfig: create the
transitions with positional ids t1, t2, ... and the configured arcs. -/
def RuntimeController.addTransitionsPhase (c : RuntimeController)
    (tcs : List TransitionConfig) : RuntimeController :=
  (tcs.foldl
    (fun (acc : RuntimeController × Nat) (tc : TransitionConfig) =>
      let tid := "t" ++ toString (acc.2 + 1)
      let trans : Transition :=
        { id := tid,
          priority := tc.priority.getD 1,
          inputArcs := tc.fromRefs.map (fun r => { ref := r }),
          outputArcs := tc.toArcs.map
            (fun oa => { ref := oa.toRef, tokenFilter := oa.tokenFilter }) }
      ({ acc.1 with
          net := { acc.1.net with transitions := acc.1.net.transitions ++ [trans] } },
        acc.2 + 1))
    (c, 0)).1

/-- RuntimeController::createNetFromConfig: the three loops in order. -/
def RuntimeController.createNetFromConfig (c : RuntimeController)
    (config : NetConfig) : RuntimeController :=
  ((c.addPlacesPhase config.places).createTypesPhase config.places).addTransitionsPhase
    config.transitions

/-- RuntimeController::loadConfig: clears the behaviour map (the net itself is
not cleared by the source) and rebuilds from the config. -/
def RuntimeController.loadConfig (c : RuntimeController) (config : NetConfig) :
    RuntimeController :=
  RuntimeController.createNetFromConfig { c with placeTypes := [] } config

/-- EntrypointPlace::inject (src/places/EntrypointPlace.cpp): validator
rejection or a full place yields id 0 and drops the token; otherwise the
injected counter is bumped and the token is pushed onto the main queue.
Returns the updated place, the id and the updated counter. -/
def entrypointInject (place : Place) (validator : Option (Token → Bool))
    (injectedCount : Nat) (t : Token) : Place × Nat × Nat :=
  match validator with
  | some v =>
    if ¬ v t then (place, 0, injectedCount)
    else if ¬ place.canAcceptToken then (place, 0, injectedCount)
    else
      match place.addToken t with
      | some (place', i) => (place', i, injectedCount + 1)
      | none => (place, 0, injectedCount + 1)
  | none =>
    if ¬ place.canAcceptToken then (place, 0, injectedCount)
    else
      match place.addToken t with
      | some (place', i) => (place', i, injectedCount + 1)
      | none => (place, 0, injectedCount + 1)

/-- Replace the behaviour bound to a place id. -/
def RuntimeController.setPlaceType (c : RuntimeController) (pid : String)
    (s : PlaceTypeState) : RuntimeController :=
  { c with placeTypes :=
      c.placeTypes.map (fun kv => if kv.1 == pid then (kv.1, s) else kv) }

/-- RuntimeController::injectToken (src/runtime/RuntimeController.cpp): id 0
when the place id is unknown or its behaviour is not an EntrypointPlace;
otherwise EntrypointPlace::inject, counting a processed token on success. -/
def RuntimeController.injectToken (c : RuntimeController) (entrypointId : String)
    (t : Token) : RuntimeController × Nat :=
  match c.placeTypes.find? (fun kv => kv.1 == entrypointId) with
  | none => (c, 0)
  | some (_, state) =>
    match state with
    | PlaceTypeState.entrypoint validator injectedCount =>
      match c.net.getPlace? entrypointId with
      | none => (c, 0)
      | some place =>
        let (place', i, injectedCount') := entrypointInject place validator injectedCount t
        let c := { c with net := c.net.setPlace place' }
        let c := c.setPlaceType entrypointId
          (PlaceTypeState.entrypoint validator injectedCount')
        if i ≠ 0 then
          ({ c with stats := { c.stats with tokensProcessed := c.stats.tokensProcessed + 1 } }, i)
        else (c, i)
    | _ => (c, 0)

/-- ActionPlace::onActionComplete (src/places/ActionPlace.cpp): route the
completed token into the sub-queue selected by the result status (InProgress,
which should not reach a completed action, also goes to error). -/
def actionCompleteRoute (place : Place) (res : ActionResult) (t : Token) : Place :=
  match res.status with
  | Status.success => { place with subSuccess := (place.subSuccess.push t).1 }
  | Status.failure => { place with subFailure := (place.subFailure.push t).1 }
  | Status.error => { place with subError := (place.subError.push t).1 }
  | Status.inProgress => { place with subError := (place.subError.push t).1 }

/-- Apply one completion-callback event to the controller: the callback that
ActionPlace::onTokenEnter installed pushes the token into the sub-queue of its
place. -/
def RuntimeController.applyCallbackEvent (c : RuntimeController)
    (ev : CallbackEvent) : RuntimeController :=
  match ev.place with
  | none => c
  | some pid =>
    match c.net.getPlace? pid with
    | none => c
    | some place => { c with net := c.net.setPlace (actionCompleteRoute place ev.result ev.token) }

/-- PlaceType::onTokenEnter dispatch as invoked by the controller for a token
delivered to a place (src/places/PlainPlace.hpp and the onTokenEnter
definitions of the other behaviours).  PlainPlace, EntrypointPlace and
ResourcePoolPlace ignore the by-value token, which therefore vanishes;
ExitLoggerPlace counts and destroys it; WaitWithTimeoutPlace pushes it to the
Main sub-queue and records a deadline; ActionPlace pushes it to the error
sub-queue when no invoker is bound, and otherwise starts an action whose
completion callback routes back to this place. -/
def RuntimeController.onTokenEnterAt (c : RuntimeController) (pid : String)
    (t : Token) (now : Nat) : RuntimeController :=
  match c.placeTypes.find? (fun kv => kv.1 == pid) with
  | none => c
  | some (_, state) =>
    match state with
    | PlaceTypeState.plain => c
    | PlaceTypeState.entrypoint _ _ => c
    | PlaceTypeState.resourcePool _ => c
    | PlaceTypeState.exitLogger n =>
      c.setPlaceType pid (PlaceTypeState.exitLogger (n + 1))
    | PlaceTypeState.waitWithTimeout timeout cond waiting =>
      match c.net.getPlace? pid with
      | none => c
      | some place =>
        let (q, i) := place.subMain.push t
        let c := { c with net := c.net.setPlace { place with subMain := q } }
        c.setPlaceType pid
          (PlaceTypeState.waitWithTimeout timeout cond (waiting ++ [(i, now + timeout)]))
    | PlaceTypeState.actionPlace cfg inv =>
      match inv with
      | none =>
        match c.net.getPlace? pid with
        | none => c
        | some place =>
          let place' := { place with subError := (place.subError.push t).1 }
          { c with net := c.net.setPlace place' }
      | some f =>
        let (ex, _) := c.executor.startAction cfg.actionName t (some f)
          cfg.retryPolicy (some pid) true
        { c with executor := ex }

/-- Lookup of an entry by id (TokenQueue::get). -/
def TokenQueue.getById (q : TokenQueue) (i : Nat) : Option Token :=
  (q.queue.find? (fun e => e.id = i)).map (fun e => e.token)

/-- Drain loop of ExitLoggerPlace::tick (src/places/ExitLoggerPlace.cpp):
while the place has an available token, remove it and count an exit.  The
loop consumes queue entries only, so the queue size at entry bounds it. -/
def drainExitLogger (place : Place) (count : Nat) : Nat → Place × Nat
  | 0 => (place, count)
  | fuel + 1 =>
    if place.hasAvailableToken then
      match place.removeToken with
      | (p', some _) => drainExitLogger p' (count + 1) fuel
      | (p', none) => (p', count)
    else (place, count)

/-- WaitWithTimeoutPlace::tick (src/places/WaitWithTimeoutPlace.cpp): for each
recorded waiting token, drop the record if the token left the Main sub-queue,
move it to Success when the condition holds, move it to Failure when its
deadline passed, and keep it otherwise. -/
def waitTick (place : Place) (cond : Option (Token → Bool)) (now : Nat) :
    List (Nat × Nat) → Place × List (Nat × Nat)
  | [] => (place, [])
  | (i, deadline) :: rest =>
    match place.subMain.getById i with
    | none => waitTick place cond now rest
    | some tok =>
      if (cond.map (fun f => f tok)).getD false then
        let (q, r) := place.subMain.remove i
        let place := { place with subMain := q }
        let place :=
          match r with
          | some t => { place with subSuccess := (place.subSuccess.push t).1 }
          | none => place
        waitTick place cond now rest
      else if deadline ≤ now then
        let (q, r) := place.subMain.remove i
        let place := { place with subMain := q }
        let place :=
          match r with
          | some t => { place with subFailure := (place.subFailure.push t).1 }
          | none => place
        waitTick place cond now rest
      else
        let (p', rest') := waitTick place cond now rest
        (p', (i, deadline) :: rest')

/-- One behaviour tick (PlaceType::tick): PlainPlace, EntrypointPlace,
ResourcePoolPlace and ActionPlace tick are no-ops; ExitLoggerPlace drains its
main queue destroying and counting the tokens; WaitWithTimeoutPlace applies
its condition and deadline checks. -/
def RuntimeController.tickPlaceType (c : RuntimeController) (now : Nat)
    (kv : String × PlaceTypeState) : RuntimeController :=
  match kv.2 with
  | PlaceTypeState.exitLogger n =>
    match c.net.getPlace? kv.1 with
    | none => c
    | some place =>
      let (place', n') := drainExitLogger place n place.tokens.size
      let c := { c with net := c.net.setPlace place' }
      c.setPlaceType kv.1 (PlaceTypeState.exitLogger n')
  | PlaceTypeState.waitWithTimeout timeout cond waiting =>
    match c.net.getPlace? kv.1 with
    | none => c
    | some place =>
      let (place', waiting') := waitTick place cond now waiting
      let c := { c with net := c.net.setPlace place' }
      c.setPlaceType kv.1 (PlaceTypeState.waitWithTimeout timeout cond waiting')
  | _ => c

/-- RuntimeController::processPlaceTypes: tick every behaviour in map order. -/
def RuntimeController.processPlaceTypes (c : RuntimeController) (now : Nat) :
    RuntimeController :=
  c.placeTypes.foldl (fun c kv => c.tickPlaceType now kv) c

/-- Delivery loop of RuntimeController::processNewTokensAtPlaces: while the
destination main queue has available tokens, pop one and hand it to the
place's onTokenEnter.  No behaviour pushes onto the main queue of the place
being drained, so the queue size at entry bounds the loop. -/
def RuntimeController.drainDeliver (c : RuntimeController) (pid : String)
    (now : Nat) : Nat → RuntimeController
  | 0 => c
  | fuel + 1 =>
    match c.net.getPlace? pid with
    | none => c
    | some place =>
      if place.tokens.availableCount = 0 then c
      else
        let (q, r) := place.tokens.pop
        let c := { c with net := c.net.setPlace { place with tokens := q } }
        match r with
        | some (_, tok) => RuntimeController.drainDeliver (c.onTokenEnterAt pid tok now) pid now fuel
        | none => c

/-- RuntimeController::processNewTokensAtPlaces: for each tracked output
destination that exists and has a behaviour, deliver the main-queue tokens to
onTokenEnter; sub-queue destinations are skipped (they bypass delivery). -/
def RuntimeController.processNewTokensAtPlaces (c : RuntimeController)
    (outs : List (String × Subplace)) (now : Nat) : RuntimeController :=
  outs.foldl
    (fun c out =>
      match c.net.getPlace? out.1 with
      | none => c
      | some place =>
        if c.placeTypes.any (fun kv => kv.1 == out.1) then
          if out.2 = Subplace.noSub then c.drainDeliver out.1 now place.tokens.size
          else c
        else c)
    c

/-- Body of the transition loop of RuntimeController::processTransitions:
re-check enablement, record the resolved output destinations, fire, and on
success count the firing, log the event and deliver the tokens that landed on
main queues. -/
def RuntimeController.fireOne (c : RuntimeController) (now : Nat)
    (t : Transition) : RuntimeController :=
  if c.net.isEnabled t then
    let outputPlaces := t.outputArcs.filterMap
      (fun arc => (c.net.getPlace? arc.ref.placeId).map (fun p => (p.id, arc.ref.sub)))
    let (n', res) := c.net.fire t c.stats.epoch
    let c := { c with net := n' }
    if res.success then
      let c :=
        { c with
          stats := { c.stats with transitionsFired := c.stats.transitionsFired + 1 },
          firedLog := c.firedLog ++ [t] }
      c.processNewTokensAtPlaces outputPlaces now
    else c
  else c

/-- RuntimeController::processTransitions: fire the transitions in the order
given by Net::getTransitionsByPriority. -/
def RuntimeController.processTransitions (c : RuntimeController) (now : Nat) :
    RuntimeController :=
  (c.net.getTransitionsByPriority).foldl (fun c t => c.fireOne now t) c

/-- RuntimeController::processTick: bump the epoch, poll the executor (whose
completion callbacks route tokens into action-place sub-queues), tick the
behaviours, then fire transitions.  The wall clock of the tick is the explicit
now argument. -/
def RuntimeController.processTick (c : RuntimeController) (now : Nat) :
    RuntimeController :=
  let c := { c with stats := { c.stats with epoch := c.stats.epoch + 1 } }
  let (ex, events) := c.executor.poll now
  let c := events.foldl RuntimeController.applyCallbackEvent { c with executor := ex }
  let c := c.processPlaceTypes now
  c.processTransitions now

/-- RuntimeController::tick (the mutex is dropped in the sequential model). -/
def RuntimeController.tick (c : RuntimeController) (now : Nat) : RuntimeController :=
  c.processTick now

/-- Run a sequence of ticks at the given instants. -/
def RuntimeController.runTicks (c : RuntimeController) (nows : List Nat) :
    RuntimeController :=
  nows.foldl RuntimeController.tick c

/-- RuntimeController::getPlaceTokens: the main queue and, when sub-queues are
enabled, the InExecution, Success, Failure and Error sub-queues (the source
skips the Main sub-queue in this listing). -/
def RuntimeController.getPlaceTokens (c : RuntimeController) (pid : String) :
    List (Nat × Nat) :=
  match c.net.getPlace? pid with
  | none => []
  | some place =>
    place.tokens.getAllTokens ++
      (if place.hasSubplaces then
        place.subInExecution.getAllTokens ++ place.subSuccess.getAllTokens ++
          place.subFailure.getAllTokens ++ place.subError.getAllTokens
      else [])

/-- Tokens injected so far: sum of the EntrypointPlace injected counters. -/
def RuntimeController.injectedTotal (c : RuntimeController) : Nat :=
  (c.placeTypes.map
    (fun kv =>
      match kv.2 with
      | PlaceTypeState.entrypoint _ n => n
      | _ => 0)).sum

/-- Tokens destroyed by exit places: sum of the ExitLoggerPlace counters. -/
def RuntimeController.exitTotal (c : RuntimeController) : Nat :=
  (c.placeTypes.map
    (fun kv =>
      match kv.2 with
      | PlaceTypeState.exitLogger n => n
      | _ => 0)).sum

/-- Tokens currently in the queues of all places, sub-queues included. -/
def RuntimeController.queuedTotal (c : RuntimeController) : Nat :=
  (c.net.places.map Place.tokenCount).sum

/-- Tokens currently held by in-flight ActionContexts. -/
def RuntimeController.inFlightTotal (c : RuntimeController) : Nat :=
  c.executor.inFlightCount

/-!  Concrete scenarios used by the theorems below. -/

/-- A place p1 holding one token in its main queue. -/
def p1WithOneToken : Place := { id := "p1", tokens := (TokenQueue.push {} {}).1 }

/-- A transition with two input arcs on p1, each of weight 1 (the enabling
check passes with a single token because each arc is checked against the
queue separately, but the second pop during fire must fail). -/
def doubleArcTrans : Transition :=
  { id := "tx",
    inputArcs := [{ ref := { placeId := "p1" } }, { ref := { placeId := "p1" } }] }

/-- Net for the failed-firing experiment. -/
def doubleArcNet : Net := { places := [p1WithOneToken], transitions := [doubleArcTrans] }

/-- Linear pipeline configuration of spec scenario 1: entry(entrypoint),
mid(plain), exit(exit_logger), t1: entry to mid, t2: mid to exit. -/
def linearConfig : NetConfig :=
  { places := [ { id := "entry", kind := PlaceKind.entrypoint },
                { id := "mid" },
                { id := "exit", kind := PlaceKind.exitLogger } ],
    transitions :=
      [ { fromRefs := [{ placeId := "entry" }],
          toArcs := [{ toRef := { placeId := "mid" } }] },
        { fromRefs := [{ placeId := "mid" }],
          toArcs := [{ toRef := { placeId := "exit" } }] } ] }

/-- Linear pipeline after injecting one token and running one tick. -/
def linearRun1 : RuntimeController :=
  let c := RuntimeController.loadConfig {} linearConfig
  let c := (c.injectToken "entry" {}).1
  c.runTicks [0]

/-- Linear pipeline after injecting one token and running two ticks. -/
def linearRun2 : RuntimeController :=
  let c := RuntimeController.loadConfig {} linearConfig
  let c := (c.injectToken "entry" {}).1
  c.runTicks [0, 10]

/-- A Running ActionContext whose timeout (10 ms) has elapsed and whose policy
permits no further attempt (maxRetries 0, one attempt made). -/
def timedOutNoRetryCtx : ActionContext :=
  { id := 1, actionName := "a", token := {},
    policy := { maxRetries := 0, timeout := 10, retryDelay := 0,
                retryOnError := true, retryOnFailure := false },
    state := ActionState.running, attemptCount := 1, startTime := 0 }

/-- A place with capacity 1 that already holds one token. -/
def fullCapacityPlace : Place :=
  { id := "p", capacity := some 1, tokens := (TokenQueue.push {} {}).1 }

/-- TokenQueue operation alphabet for the id-monotonicity statement. -/
inductive QueueOp where
  | pushOp (t : Token)
  | popOp
  | removeOp (i : Nat)
  | lockOp (i : Nat)
  | unlockOp (i : Nat)
deriving DecidableEq, Repr

/-- Apply one TokenQueue operation, returning the id when the operation is a
push. -/
def applyQueueOp (q : TokenQueue) : QueueOp → TokenQueue × Option Nat
  | QueueOp.pushOp t => ((q.push t).1, some (q.push t).2)
  | QueueOp.popOp => ((q.pop).1, none)
  | QueueOp.removeOp i => ((q.remove i).1, none)
  | QueueOp.lockOp i => (q.lockId i, none)
  | QueueOp.unlockOp i => (q.unlockId i, none)

/-- Run a sequence of TokenQueue operations, collecting the push-returned
ids in order. -/
def runQueueOps (q : TokenQueue) : List QueueOp → TokenQueue × List Nat
  | [] => (q, [])
  | op :: rest =>
    ((runQueueOps (applyQueueOp q op).1 rest).1,
      (applyQueueOp q op).2.toList ++ (runQueueOps (applyQueueOp q op).1 rest).2)

/-- The always-Error invoker of spec scenario 3. -/
def flakyInvoker : Invoker := fun t => ({ status := Status.error, message := "boom" }, t)

/-- Configuration of spec scenario 3: entry(entrypoint), act(action with
action_id flaky, retries 2, timeout_per_try 30000 ms), transition entry to
act. -/
def flakyNetConfig : NetConfig :=
  { places := [ { id := "entry", kind := PlaceKind.entrypoint },
                { id := "act", kind := PlaceKind.action,
                  params := PlaceParams.actionParams "flaky" 2 30000 } ],
    transitions :=
      [ { fromRefs := [{ placeId := "entry" }],
          toArcs := [{ toRef := { placeId := "act" } }] } ] }

/-- Controller where register_action is called AFTER load_config completed. -/
def lateRegController : RuntimeController :=
  (RuntimeController.loadConfig {} flakyNetConfig).registerAction "flaky" flakyInvoker

/-- Late-registration run: inject one token and run two ticks. -/
def lateRegRun : RuntimeController :=
  ((lateRegController.injectToken "entry" {}).1).runTicks [0, 1000]

/-- Whether the ActionPlace behaviour at a place id holds a bound invoker. -/
def actionInvokerBound (c : RuntimeController) (pid : String) : Option Bool :=
  (c.placeTypes.find? (fun kv => kv.1 == pid)).map (fun kv =>
    match kv.2 with
    | PlaceTypeState.actionPlace _ i => i.isSome
    | _ => false)

/-- Every ActionPlace behaviour whose configured action name equals the given
name holds the given invoker. -/
def BoundProp (name : String) (inv : Invoker) (c : RuntimeController) : Prop :=
  ∀ pid acfg i, (pid, PlaceTypeState.actionPlace acfg i) ∈ c.placeTypes →
    acfg.actionName = name → i = some inv

/-- Controller where register_action is called BEFORE load_config. -/
def flakyBound : RuntimeController :=
  (RuntimeController.registerAction {} "flaky" flakyInvoker).loadConfig flakyNetConfig

/-- An invoker that never reports InProgress. -/
def NonIP (f : Invoker) : Prop := ∀ t, ((f t).1).status ≠ Status.inProgress

/-- ActionExecutor operation alphabet (startAction, poll, cancel, cancelAll). -/
inductive ExecOp where
  | startOp (actionName : String) (token : Token) (inv : Option Invoker)
      (policy : RetryPolicy) (callbackPlace : Option String) (hasCallback : Bool)
  | pollOp (now : Nat)
  | cancelOp (i : Nat)
  | cancelAllOp

/-- Apply one executor operation. -/
def applyExecOp (ex : ActionExecutor) : ExecOp → ActionExecutor
  | ExecOp.startOp n t i p cb hc => (ex.startAction n t i p cb hc).1
  | ExecOp.pollOp now => (ex.poll now).1
  | ExecOp.cancelOp i => ex.cancelId i
  | ExecOp.cancelAllOp => ex.cancelAll

/-- Run a sequence of executor operations. -/
def runExecOps (ex : ActionExecutor) (ops : List ExecOp) : ActionExecutor :=
  ops.foldl applyExecOp ex

/-- Retry invariant of an in-flight record: the attempt count respects the
cap, a Pending context has a further attempt in reserve, and for an invoker
that never reports InProgress the context never rests in Running and the call
count equals the attempt count. -/
def RecordRetryInv (r : InFlightAction) : Prop :=
  r.context.attemptCount ≤ r.context.policy.maxRetries + 1 ∧
  (r.context.state = ActionState.pending →
    r.context.attemptCount ≤ r.context.policy.maxRetries) ∧
  (∀ f, r.invoker = some f → NonIP f →
    r.context.state ≠ ActionState.running ∧ r.invokerCalls = r.context.attemptCount)

/-- Retry invariant carried over to removed (completed) records. -/
def CompletedRetryInv (rec : CompletedRecord) : Prop :=
  rec.attemptCount ≤ rec.maxRetries + 1 ∧
  (∀ f, rec.invoker = some f → NonIP f → rec.invokerCalls = rec.attemptCount)

/-- Retry invariant of the whole executor. -/
def ExecRetryInv (ex : ActionExecutor) : Prop :=
  (∀ r ∈ ex.inFlight, RecordRetryInv r) ∧
  (∀ rec ∈ ex.completedLog, CompletedRetryInv rec)

/-- Spec scenario 3 run: flaky registered before load, one token injected,
four ticks spaced by the default retry delay. -/
def flakyRun : RuntimeController :=
  ((((RuntimeController.registerAction {} "flaky" flakyInvoker).loadConfig
      flakyNetConfig).injectToken "entry" {}).1).runTicks [0, 1000, 2000, 3000]

/-- An invoker that always reports InProgress. -/
def inProgressInvoker : Invoker := fun t => ({ status := Status.inProgress }, t)

/-- Executor after starting an always-InProgress action with no retries and
polling twice. -/
def inProgressTwoPolls : ActionExecutor :=
  runExecOps {} [ExecOp.startOp "ip" {} (some inProgressInvoker) RetryPolicy.noRetry none true,
    ExecOp.pollOp 0, ExecOp.pollOp 1]

/-- One startAction operation used to instantiate the retry bound. -/
def c6StartOps : List ExecOp :=
  [ExecOp.startOp "a" {} (some flakyInvoker) RetryPolicy.noRetry none true]

/-- The in-flight record created by c6StartOps. -/
def c6StartRecord : InFlightAction :=
  { context := { id := 1, actionName := "a", token := {},
                 policy := RetryPolicy.noRetry, hasCallback := true },
    invoker := some flakyInvoker, callbackPlace := none }

/-- Ids of the in-flight records. -/
def flightIds (ex : ActionExecutor) : List Nat := ex.inFlight.map (fun r => r.context.id)

/-- Ids of the completed (removed) records. -/
def doneIds (ex : ActionExecutor) : List Nat := ex.completedLog.map (fun r => r.id)

/-- Ids of the executed completion callbacks. -/
def emittedIds (ex : ActionExecutor) : List Nat := ex.emittedCallbacks.map (fun e => e.id)

/-- Callback invariant: in-flight contexts have not fired their callback,
all ids are unique and fresh, completed ids have left the in-flight set, and
the executed callbacks are exactly the completed records that carried a
callback. -/
def CallbackInv (ex : ActionExecutor) : Prop :=
  (∀ r ∈ ex.inFlight, r.context.callbackInvoked = false) ∧
  (flightIds ex).Nodup ∧
  (doneIds ex).Nodup ∧
  (∀ i ∈ flightIds ex, i < ex.nextId) ∧
  (∀ i ∈ doneIds ex, i < ex.nextId) ∧
  (∀ i ∈ doneIds ex, i ∉ flightIds ex) ∧
  emittedIds ex = (ex.completedLog.filter (fun r => r.hasCallback)).map (fun r => r.id)

/-- Start-then-poll operation sequence used to instantiate the
exactly-once property. -/
def c8Ops : List ExecOp :=
  [ExecOp.startOp "a" {} (some flakyInvoker) RetryPolicy.noRetry none true,
   ExecOp.pollOp 0]

/-- Number of unlocked entries of an entry list (the list form of
TokenQueue.availableCount). -/
def availEntries (l : List Entry) : Nat := (l.filter (fun e => !e.locked)).length

/-- Input place of the higher-priority transition of the concrete C7 net,
holding one unlocked token. -/
def c7In1 : Place :=
  { id := "p1", tokens := { queue := [⟨1, ⟨10⟩, false⟩], nextId := 2 } }

/-- Input place of the lower-priority transition of the concrete C7 net. -/
def c7In2 : Place :=
  { id := "p2", tokens := { queue := [⟨1, ⟨20⟩, false⟩], nextId := 2 } }

/-- Shared output place of the concrete C7 net. -/
def c7Out : Place := { id := "p3" }

/-- Higher-priority transition (priority 5) of the concrete C7 net. -/
def c7T1 : Transition :=
  { id := "t1", priority := 5,
    inputArcs := [{ ref := { placeId := "p1" } }],
    outputArcs := [{ ref := { placeId := "p3" } }] }

/-- Lower-priority transition (priority 1) of the concrete C7 net. -/
def c7T2 : Transition :=
  { id := "t2", priority := 1,
    inputArcs := [{ ref := { placeId := "p2" } }],
    outputArcs := [{ ref := { placeId := "p3" } }] }

/-- Concrete controller for the C7 witness: the two transitions are stored in
ascending priority order, so the sort must reorder them. -/
def c7Controller : RuntimeController :=
  { net := { places := [c7In1, c7In2, c7Out], transitions := [c7T2, c7T1] } }

/-- C1.  Net::fire performs no rollback: on the concrete net where transition
tx has two weight-1 input arcs on place p1 and p1 holds a single token, the
transition is enabled (each arc is checked separately against the same queue),
the firing fails at the second pop, and afterwards p1's main queue is empty:
the token consumed by the first pop is not returned, so the multiset of tokens
in the input place differs from its state before the attempt. -/
theorem c1_fire_no_rollback :
    doubleArcNet.isEnabled doubleArcTrans = true ∧
    (doubleArcNet.fire doubleArcTrans 1).2.success = false ∧
    ((doubleArcNet.getPlace? "p1").map (fun p => p.tokens.size) = some 1) ∧
    (((doubleArcNet.fire doubleArcTrans 1).1.getPlace? "p1").map
      (fun p => p.tokens.size) = some 0) := by
  refine ⟨by decide, by decide, by decide, by decide⟩

/-- C2.  Token conservation fails: in the linear pipeline, after injecting one
token and running a single tick, one token has been injected, none was
destroyed by an exit place, and no token remains in any queue or in-flight
ActionContext — the token delivered to the plain place mid was popped by
RuntimeController::processNewTokensAtPlaces and dropped by
PlainPlace::onTokenEnter, so injected (1) differs from destroyed-by-exit (0)
plus queued (0) plus in-flight (0). -/
theorem c2_conservation_violated :
    linearRun1.injectedTotal = 1 ∧
    linearRun1.exitTotal = 0 ∧
    linearRun1.queuedTotal = 0 ∧
    linearRun1.inFlightTotal = 0 := by
  refine ⟨by decide, by decide, by decide, by decide⟩

/-- C3.  Linear pipeline scenario diverges from the claim: after injecting one
token at entry and running two ticks, entry and mid are indeed empty, but only
ONE transition fired (not 2) and the exit counter is 0 (not 1): the token
delivered to the plain place mid was destroyed by PlainPlace::onTokenEnter
instead of remaining in the main queue, so t2 never became enabled. -/
theorem c3_linear_pipeline_diverges :
    linearRun2.getPlaceTokens "entry" = [] ∧
    linearRun2.getPlaceTokens "mid" = [] ∧
    linearRun2.stats.transitionsFired = 1 ∧
    linearRun2.exitTotal = 0 ∧
    linearRun2.firedLog.map Transition.id = ["t1"] := by
  refine ⟨by decide, by decide, by decide, by decide, by decide⟩

/-- C5 counterexample.  On a Running context whose timeout has elapsed and
whose retry policy permits no further attempt, ActionExecutor::processAction
leaves the state Error (the timed-out result is folded by
ActionContext::update), never TimedOut as the claim states. -/
theorem c5_timeout_state_is_error_not_timedout :
    (processAction 10 none timedOutNoRetryCtx).1.state = ActionState.error ∧
    (processAction 10 none timedOutNoRetryCtx).1.state ≠ ActionState.timedOut := by
  refine ⟨by decide, by decide⟩

/-- C5 amended.  For every Running in-flight context at a poll with
now - start_instant at least the timeout: the last result is updated to the
timed-out error; if the retry policy permits another attempt a retry is
scheduled (state Pending, retry instant now plus the retry delay); otherwise
the state becomes Error — the TimedOut state is never assigned. -/
theorem c5_running_timeout_behaviour (ctx : ActionContext) (inv : Option Invoker)
    (now : Nat) (hrun : ctx.state = ActionState.running)
    (hto : ctx.policy.timeout ≤ now - ctx.startTime) :
    ((processAction now inv ctx).1.lastResult =
      ActionResult.errorMessageResult "Action timed out") ∧
    (((ctx.update (ActionResult.errorMessageResult "Action timed out")).canRetry = true →
        (processAction now inv ctx).1.state = ActionState.pending ∧
        (processAction now inv ctx).1.retryTime = now + ctx.policy.retryDelay) ∧
      ((ctx.update (ActionResult.errorMessageResult "Action timed out")).canRetry = false →
        (processAction now inv ctx).1.state = ActionState.error)) := by
  obtain ⟨i, an, tok, pol, st, lr, ac, stt, rt, cbi, hcb⟩ := ctx
  simp only [ActionContext.state] at hrun
  subst hrun
  have hTO : ActionContext.isTimedOut
      ⟨i, an, tok, pol, ActionState.running, lr, ac, stt, rt, cbi, hcb⟩ now = true := by
    simp [ActionContext.isTimedOut]
    exact hto
  simp only [processAction, hTO, if_true, ActionContext.update,
    ActionResult.errorMessageResult]
  split
  · rename_i hcr
    refine ⟨rfl, ⟨fun h => ⟨rfl, rfl⟩, fun h => ?_⟩⟩
    rw [hcr] at h
    exact absurd h (by simp)
  · rename_i hcr
    simp only [Bool.not_eq_true] at hcr
    refine ⟨rfl, ⟨fun h => ?_, fun h => rfl⟩⟩
    rw [hcr] at h
    exact absurd h (by simp)

/-- C5 witness: the amended theorem applied to the concrete timed-out context
without remaining retries. -/
theorem c5_running_timeout_behaviour_witness :
    (processAction 10 none timedOutNoRetryCtx).1.state = ActionState.error := by
  have h := c5_running_timeout_behaviour timedOutNoRetryCtx none 10 rfl (by decide)
  exact h.2.2 (by decide)

/-- C9.  Place::addToken raises the capacity error exactly when a capacity is
set and the main queue size (sub-queues play no part) has reached it, leaving
the place unchanged (the throw happens before any push); with no capacity set
it always succeeds, pushing onto the main queue and returning the freshly
allocated id. -/
theorem c9_capacity_counts_main_queue_only (p : Place) (t : Token) :
    (p.addToken t = none ↔ ∃ cap, p.capacity = some cap ∧ cap ≤ p.tokens.size) ∧
    (p.capacity = none →
      p.addToken t =
        some ({ p with tokens := (p.tokens.push t).1 }, p.tokens.nextId)) := by
  constructor
  · constructor
    · intro h
      unfold Place.addToken at h
      cases hc : p.capacity with
      | none => rw [hc] at h; simp [TokenQueue.push] at h
      | some cap =>
        rw [hc] at h
        by_cases hle : cap ≤ p.tokens.size
        · exact ⟨cap, rfl, hle⟩
        · simp [hle, TokenQueue.push] at h
    · rintro ⟨cap, hc, hle⟩
      unfold Place.addToken
      rw [hc]
      simp [hle]
  · intro hc
    unfold Place.addToken
    rw [hc]
    rfl

/-- C9 witness: the theorem applied to the full capacity-1 place (rejection)
and to a capacity-free place (success with the first id, 1). -/
theorem c9_capacity_counts_main_queue_only_witness :
    fullCapacityPlace.addToken {} = none ∧
    (Place.mk "q" none {} false {} {} {} {} {}).addToken {} =
      some ({ Place.mk "q" none {} false {} {} {} {} {} with
              tokens := ((TokenQueue.mk [] 1).push {}).1 }, 1) := by
  constructor
  · exact (c9_capacity_counts_main_queue_only fullCapacityPlace {}).1.mpr
      ⟨1, rfl, by decide⟩
  · exact (c9_capacity_counts_main_queue_only
      (Place.mk "q" none {} false {} {} {} {} {}) {}).2 rfl

/-- Helper: the invoker registry lookup after an in-place upsert hits the
replaced entry. -/
theorem find_map_upsert (name : String) (inv : Invoker) :
    ∀ l : List (String × Invoker),
      l.any (fun kv => kv.1 == name) = true →
      ((l.map (fun kv => if kv.1 == name then (kv.1, inv) else kv)).find?
        (fun kv => kv.1 == name)).map (fun kv => kv.2) = some inv
  | [], h => by simp at h
  | kv :: rest, h => by
    by_cases hk : kv.1 = name
    · have hk' : (kv.1 == name) = true := by simp [hk]
      simp only [List.map_cons, hk', if_true]
      rw [List.find?_cons_of_pos _ (by simp [hk])]
      rfl
    · have hk' : (kv.1 == name) = false := by simp [hk]
      have h' : rest.any (fun kv => kv.1 == name) = true := by
        simp only [List.any_cons, hk', Bool.false_or] at h
        exact h
      simp only [List.map_cons, hk', if_false]
      rw [List.find?_cons_of_neg _ (by simp [hk])]
      exact find_map_upsert name inv rest h'

/-- Helper: the invoker registry lookup after appending a fresh entry hits the
appended entry. -/
theorem find_append_upsert (name : String) (inv : Invoker) :
    ∀ l : List (String × Invoker),
      l.any (fun kv => kv.1 == name) = false →
      ((l ++ [(name, inv)]).find? (fun kv => kv.1 == name)).map (fun kv => kv.2) =
        some inv
  | [], _ => by
    rw [List.nil_append, List.find?_cons_of_pos _ (by simp)]
    rfl
  | kv :: rest, h => by
    have hk : (kv.1 == name) = false := by
      simp only [List.any_cons, Bool.or_eq_false_iff] at h
      exact h.1
    rw [List.cons_append,
      List.find?_cons_of_neg _ (by simp [of_decide_eq_false]; intro he; simp [he] at hk)]
    exact find_append_upsert name inv rest (by
      simp only [List.any_cons, Bool.or_eq_false_iff] at h
      exact h.2)

/-- Helper: registerAction makes the registry yield the new invoker. -/
theorem findInvoker_registerAction (c : RuntimeController) (name : String) (inv : Invoker) :
    (c.registerAction name inv).findInvoker name = some inv := by
  unfold RuntimeController.registerAction RuntimeController.findInvoker
  by_cases h : c.actionInvokers.any (fun kv => kv.1 == name)
  · simp only [h, if_true]
    exact find_map_upsert name inv c.actionInvokers h
  · simp only [h, if_false]
    exact find_append_upsert name inv c.actionInvokers
      (by simp only [Bool.not_eq_true] at h; exact h)

/-- Helper: createPlaceType never touches the invoker registry. -/
theorem createPlaceType_actionInvokers (c : RuntimeController) (pc : PlaceConfig)
    (place : Place) :
    (c.createPlaceType pc place).actionInvokers = c.actionInvokers := by
  unfold RuntimeController.createPlaceType
  cases pc.kind <;> cases pc.params <;> rfl

/-- Helper: the place-creation loop touches neither the registry nor the
behaviour map. -/
theorem addPlacesPhase_keeps (pcs : List PlaceConfig) (c : RuntimeController) :
    (c.addPlacesPhase pcs).actionInvokers = c.actionInvokers ∧
    (c.addPlacesPhase pcs).placeTypes = c.placeTypes := by
  induction pcs generalizing c with
  | nil => exact ⟨rfl, rfl⟩
  | cons pc rest ih => exact ih _

/-- Helper: createPlaceType preserves BoundProp, binding the registered
invoker to each action place it creates for the registered name. -/
theorem createPlaceType_bound (c : RuntimeController) (pc : PlaceConfig)
    (place : Place) (name : String) (inv : Invoker)
    (hwf : pc.kind = PlaceKind.action →
      ∃ a r t, pc.params = PlaceParams.actionParams a r t)
    (hfind : c.findInvoker name = some inv)
    (hP : BoundProp name inv c) :
    BoundProp name inv (c.createPlaceType pc place) := by
  intro pid acfg i hmem hname
  unfold RuntimeController.createPlaceType at hmem
  cases hk : pc.kind <;> rw [hk] at hmem
  case action =>
    obtain ⟨a, r, t, hp⟩ := hwf hk
    rw [hp] at hmem
    simp only [List.mem_append, List.mem_singleton] at hmem
    rcases hmem with hmem | hmem
    · exact hP pid acfg i hmem hname
    · injection hmem with h2a h2b
      injection h2b with h2c h2d
      subst h2c
      have ha : a = name := hname
      rw [h2d, ha]
      exact hfind
  all_goals {
    cases hpp : pc.params <;> rw [hpp] at hmem <;>
      simp only [List.mem_append, List.mem_singleton] at hmem <;>
      (rcases hmem with hmem | hmem
       · exact hP pid acfg i hmem hname
       · exact absurd hmem
           (by intro hx; injection hx with _ hx2; exact PlaceTypeState.noConfusion hx2))
  }

/-- Helper: the behaviour-creation loop preserves BoundProp and leaves the
registry unchanged. -/
theorem createTypesPhase_bound (name : String) (inv : Invoker) :
    ∀ (pcs : List PlaceConfig) (c : RuntimeController),
      (∀ pc ∈ pcs, pc.kind = PlaceKind.action →
        ∃ a r t, pc.params = PlaceParams.actionParams a r t) →
      c.findInvoker name = some inv → BoundProp name inv c →
      BoundProp name inv (c.createTypesPhase pcs) ∧
      (c.createTypesPhase pcs).actionInvokers = c.actionInvokers
  | [], c, _, _, hP => ⟨hP, rfl⟩
  | pc :: rest, c, hwf, hfind, hP => by
    have step : c.createTypesPhase (pc :: rest) =
        (match c.net.getPlace? pc.id with
          | some place => c.createPlaceType pc place
          | none => c).createTypesPhase rest := rfl
    rw [step]
    cases h : c.net.getPlace? pc.id with
    | none =>
      simp only [h]
      exact createTypesPhase_bound name inv rest c
        (fun p hp => hwf p (List.mem_cons_of_mem _ hp)) hfind hP
    | some place =>
      simp only [h]
      have hinv := createPlaceType_actionInvokers c pc place
      have hfind' : (c.createPlaceType pc place).findInvoker name = some inv := by
        unfold RuntimeController.findInvoker
        rw [hinv]
        exact hfind
      have hP' := createPlaceType_bound c pc place name inv
        (hwf pc (List.mem_cons_self _ _)) hfind hP
      have hres := createTypesPhase_bound name inv rest (c.createPlaceType pc place)
        (fun p hp => hwf p (List.mem_cons_of_mem _ hp)) hfind' hP'
      exact ⟨hres.1, hres.2.trans hinv⟩

/-- Helper: the transition-creation loop touches neither the behaviour map nor
the registry. -/
theorem addTransitionsPhase_keeps (tcs : List TransitionConfig) :
    ∀ (c : RuntimeController) (k : Nat),
      ((tcs.foldl
        (fun (acc : RuntimeController × Nat) (tc : TransitionConfig) =>
          let tid := "t" ++ toString (acc.2 + 1)
          let trans : Transition :=
            { id := tid,
              priority := tc.priority.getD 1,
              inputArcs := tc.fromRefs.map (fun r => { ref := r }),
              outputArcs := tc.toArcs.map
                (fun oa => { ref := oa.toRef, tokenFilter := oa.tokenFilter }) }
          ({ acc.1 with
              net := { acc.1.net with transitions := acc.1.net.transitions ++ [trans] } },
            acc.2 + 1))
        (c, k)).1.placeTypes = c.placeTypes) ∧
      ((tcs.foldl
        (fun (acc : RuntimeController × Nat) (tc : TransitionConfig) =>
          let tid := "t" ++ toString (acc.2 + 1)
          let trans : Transition :=
            { id := tid,
              priority := tc.priority.getD 1,
              inputArcs := tc.fromRefs.map (fun r => { ref := r }),
              outputArcs := tc.toArcs.map
                (fun oa => { ref := oa.toRef, tokenFilter := oa.tokenFilter }) }
          ({ acc.1 with
              net := { acc.1.net with transitions := acc.1.net.transitions ++ [trans] } },
            acc.2 + 1))
        (c, k)).1.actionInvokers = c.actionInvokers) := by
  induction tcs with
  | nil => exact fun c k => ⟨rfl, rfl⟩
  | cons tc rest ih => exact fun c k => ih _ _

/-- C4 counterexample.  Calling register_action after load_config has
completed does not bind: in the concrete run, the ActionPlace act still has no
invoker bound, and a token injected and delivered to it lands in the error
sub-queue without any invoker call or in-flight action (the claim says the
invoker would be bound and the action started). -/
theorem c4_register_after_load_unbound :
    actionInvokerBound lateRegController "act" = some false ∧
    ((lateRegRun.net.getPlace? "act").map (fun p => p.subError.size) = some 1) ∧
    lateRegRun.executor.totalInvokerCalls = 0 ∧
    lateRegRun.executor.inFlightCount = 0 := by
  refine ⟨rfl, rfl, rfl, rfl⟩

/-- C4 amended.  register_action(name, invoker) updates the controller's
registry (rebinding the same name replaces the previous entry), and the
registry is consulted only while load_config creates the ActionPlaces: for
every well-formed config loaded after registering, every ActionPlace whose
configured action name equals the registered name holds that invoker, and a
token entering a place with a bound invoker starts the action on the executor
with exactly that invoker.  Registration after load_config does not bind to
the already-created places (see the counterexample). -/
theorem c4_register_binds_only_at_load (c0 : RuntimeController) (cfg : NetConfig)
    (name : String) (inv : Invoker)
    (hwf : ∀ pc ∈ cfg.places, pc.kind = PlaceKind.action →
      ∃ a r t, pc.params = PlaceParams.actionParams a r t) :
    (∀ pid acfg i,
        (pid, PlaceTypeState.actionPlace acfg i) ∈
          ((c0.registerAction name inv).loadConfig cfg).placeTypes →
        acfg.actionName = name → i = some inv) ∧
    (∀ inv0 : Invoker,
        ((c0.registerAction name inv0).registerAction name inv).findInvoker name =
          some inv) ∧
    (∀ (c : RuntimeController) (pid : String) (acfg : ActionPlaceConfig)
        (f : Invoker) (t : Token) (now : Nat),
        c.placeTypes.find? (fun kv => kv.1 == pid) =
          some (pid, PlaceTypeState.actionPlace acfg (some f)) →
        (c.onTokenEnterAt pid t now).executor.inFlight =
          c.executor.inFlight ++
            [{ context := { id := c.executor.nextId, actionName := acfg.actionName,
                            token := t, policy := acfg.retryPolicy },
               invoker := some f, callbackPlace := some pid }]) := by
  refine ⟨?_, ?_, ?_⟩
  · have hreg : (c0.registerAction name inv).findInvoker name = some inv :=
      findInvoker_registerAction c0 name inv
    have hA : ({ c0.registerAction name inv with placeTypes := [] } :
        RuntimeController).findInvoker name = some inv := hreg
    have hkeep := addPlacesPhase_keeps cfg.places
      { c0.registerAction name inv with placeTypes := [] }
    have hB : (({ c0.registerAction name inv with placeTypes := [] } :
        RuntimeController).addPlacesPhase cfg.places).findInvoker name = some inv := by
      unfold RuntimeController.findInvoker
      rw [hkeep.1]
      exact hA
    have hPB : BoundProp name inv
        (({ c0.registerAction name inv with placeTypes := [] } :
          RuntimeController).addPlacesPhase cfg.places) := by
      intro pid acfg i hmem hname
      rw [hkeep.2] at hmem
      simp at hmem
    have hC := createTypesPhase_bound name inv cfg.places _ hwf hB hPB
    intro pid acfg i hmem hname
    have hkeep2 := addTransitionsPhase_keeps cfg.transitions
      ((({ c0.registerAction name inv with placeTypes := [] } :
        RuntimeController).addPlacesPhase cfg.places).createTypesPhase cfg.places) 0
    unfold RuntimeController.loadConfig RuntimeController.createNetFromConfig at hmem
    unfold RuntimeController.addTransitionsPhase at hmem
    rw [hkeep2.1] at hmem
    exact hC.1 pid acfg i hmem hname
  · intro inv0
    exact findInvoker_registerAction _ name inv
  · intro c pid acfg f t now hfind
    unfold RuntimeController.onTokenEnterAt
    rw [hfind]
    rfl

/-- C4 witness: for the concrete flaky configuration registered before
loading, a token entering the act place starts the flaky action with the
registered invoker. -/
theorem c4_register_binds_only_at_load_witness :
    (flakyBound.onTokenEnterAt "act" {} 0).executor.inFlight =
      flakyBound.executor.inFlight ++
        [{ context := { id := flakyBound.executor.nextId, actionName := "flaky",
                        token := {},
                        policy := { maxRetries := 2, timeout := 30000,
                                    retryDelay := 1000, retryOnError := true,
                                    retryOnFailure := false } },
           invoker := some flakyInvoker, callbackPlace := some "act" }] := by
  have hwf : ∀ pc ∈ flakyNetConfig.places, pc.kind = PlaceKind.action →
      ∃ a r t, pc.params = PlaceParams.actionParams a r t := by
    intro pc hpc hk
    simp only [flakyNetConfig, List.mem_cons, List.mem_singleton] at hpc
    rcases hpc with h | h | h
    · subst h; exact absurd hk (by decide)
    · subst h; exact ⟨"flaky", 2, 30000, rfl⟩
    · simp at h
  have h := (c4_register_binds_only_at_load {} flakyNetConfig "flaky" flakyInvoker hwf).2.2
  exact h flakyBound "act"
    { actionName := "flaky",
      retryPolicy := { maxRetries := 2, timeout := 30000, retryDelay := 1000,
                       retryOnError := true, retryOnFailure := false } }
    flakyInvoker {} 0 rfl

/-- Helper: push returns the current nextId and bumps it; every other queue
operation preserves nextId and returns no id. -/
theorem nextId_applyQueueOp (q : TokenQueue) (op : QueueOp) :
    q.nextId ≤ (applyQueueOp q op).1.nextId ∧
    (∀ i, (applyQueueOp q op).2 = some i →
      i = q.nextId ∧ q.nextId + 1 ≤ (applyQueueOp q op).1.nextId) := by
  cases op with
  | pushOp t =>
    refine ⟨Nat.le_succ _, ?_⟩
    intro i h
    injection h with h
    exact ⟨h.symm, Nat.le_refl _⟩
  | popOp =>
    refine ⟨?_, fun i h => by simp [applyQueueOp] at h⟩
    unfold applyQueueOp TokenQueue.pop
    cases popFirstUnlocked q.queue <;> simp
  | removeOp i =>
    refine ⟨?_, fun j h => by simp [applyQueueOp] at h⟩
    unfold applyQueueOp TokenQueue.remove
    cases h : removeById q.queue i with
    | none => simp [h]
    | some p => cases p; simp [h]
  | lockOp i => exact ⟨Nat.le_refl _, fun j h => by simp [applyQueueOp] at h⟩
  | unlockOp i => exact ⟨Nat.le_refl _, fun j h => by simp [applyQueueOp] at h⟩

/-- Helper: along any operation sequence the returned ids are at least the
starting nextId and strictly increasing. -/
theorem runQueueOps_ids (ops : List QueueOp) :
    ∀ q : TokenQueue,
      (∀ i ∈ (runQueueOps q ops).2, q.nextId ≤ i) ∧
      (runQueueOps q ops).2.Chain' (· < ·) := by
  induction ops with
  | nil => exact fun q => ⟨fun i h => absurd h (List.not_mem_nil i), List.chain'_nil⟩
  | cons op rest ih =>
    intro q
    have hop := nextId_applyQueueOp q op
    have hrest := ih (applyQueueOp q op).1
    cases hr : (applyQueueOp q op).2 with
    | none =>
      constructor
      · intro i hi
        simp only [runQueueOps, hr, Option.toList_none, List.nil_append] at hi
        exact Nat.le_trans hop.1 (hrest.1 i hi)
      · simp only [runQueueOps, hr, Option.toList_none, List.nil_append]
        exact hrest.2
    | some j =>
      have hj := hop.2 j hr
      constructor
      · intro i hi
        simp only [runQueueOps, hr, Option.toList_some, List.singleton_append,
          List.mem_cons] at hi
        rcases hi with hi | hi
        · exact hi ▸ Nat.le_of_eq hj.1.symm
        · exact Nat.le_trans (Nat.le_succ _) (Nat.le_trans hj.2 (hrest.1 i hi))
      · simp only [runQueueOps, hr, Option.toList_some, List.singleton_append]
        refine List.chain'_cons'.mpr ⟨?_, hrest.2⟩
        intro y hy
        have hmem := List.mem_of_mem_head? hy
        have := hrest.1 y hmem
        have : q.nextId + 1 ≤ y := Nat.le_trans hj.2 this
        rw [hj.1]
        exact Nat.lt_of_succ_le this



/-- Helper: with room available, Place::addToken pushes and returns the next
id of the main queue. -/
theorem addToken_of_canAccept (p : Place) (t : Token) (h : p.canAcceptToken = true) :
    p.addToken t = some ({ p with tokens := (p.tokens.push t).1 }, p.tokens.nextId) := by
  unfold Place.canAcceptToken at h
  unfold Place.addToken
  cases hc : p.capacity with
  | none => rfl
  | some cap =>
    rw [hc] at h
    have : ¬ cap ≤ p.tokens.size := by
      simp only [decide_eq_true_eq] at h
      omega
    simp [this]
    rfl

/-- Helper equation: inject with no validator into a place with room. -/
theorem inject_accept_eq (place : Place) (cnt : Nat) (t : Token)
    (hacc : place.canAcceptToken = true) :
    entrypointInject place none cnt t =
      ({ place with tokens := (place.tokens.push t).1 }, place.tokens.nextId, cnt + 1) := by
  unfold entrypointInject
  rw [addToken_of_canAccept place t hacc]
  simp [hacc]

/-- Helper equation: inject with an accepting validator into a place with
room. -/
theorem inject_accept_val_eq (place : Place) (cnt : Nat) (t : Token)
    (v : Token → Bool) (hv : v t = true) (hacc : place.canAcceptToken = true) :
    entrypointInject place (some v) cnt t =
      ({ place with tokens := (place.tokens.push t).1 }, place.tokens.nextId, cnt + 1) := by
  unfold entrypointInject
  rw [addToken_of_canAccept place t hacc]
  simp [hacc, hv]

/-- Helper equation: inject with no validator into a full place. -/
theorem inject_full_eq (place : Place) (cnt : Nat) (t : Token)
    (hacc : place.canAcceptToken = false) :
    entrypointInject place none cnt t = (place, 0, cnt) := by
  unfold entrypointInject
  simp [hacc]

/-- Helper equation: inject with an accepting validator into a full place. -/
theorem inject_full_val_eq (place : Place) (cnt : Nat) (t : Token)
    (v : Token → Bool) (hv : v t = true) (hacc : place.canAcceptToken = false) :
    entrypointInject place (some v) cnt t = (place, 0, cnt) := by
  unfold entrypointInject
  simp [hacc, hv]

/-- Helper equation: inject with a rejecting validator. -/
theorem inject_reject_eq (place : Place) (cnt : Nat) (t : Token)
    (v : Token → Bool) (hv : v t = false) :
    entrypointInject place (some v) cnt t = (place, 0, cnt) := by
  unfold entrypointInject
  simp [hv]

/-- C10.  TokenQueue::push allocates ids starting at 1, strictly increasing
over the lifetime of the queue, so 0 is an unambiguous rejection sentinel:
EntrypointPlace::inject returns 0 exactly on validator rejection or a full
place (leaving the place unchanged) and otherwise returns the freshly pushed
id, and RuntimeController::injectToken returns 0 with the controller
unchanged when the place id is unknown or not an entrypoint. -/
theorem c10_token_ids_and_zero_sentinel :
    (∀ (ops : List QueueOp) (q : TokenQueue), 1 ≤ q.nextId →
      ((runQueueOps q ops).2.Chain' (· < ·) ∧ ∀ i ∈ (runQueueOps q ops).2, 1 ≤ i)) ∧
    (∀ (place : Place) (validator : Option (Token → Bool)) (cnt : Nat) (t : Token),
      1 ≤ place.tokens.nextId →
      (((entrypointInject place validator cnt t).2.1 = 0 ↔
        ((∃ v, validator = some v ∧ v t = false) ∨ place.canAcceptToken = false)) ∧
      ((entrypointInject place validator cnt t).2.1 ≠ 0 →
        (entrypointInject place validator cnt t).2.1 = place.tokens.nextId) ∧
      ((entrypointInject place validator cnt t).2.1 = 0 →
        (entrypointInject place validator cnt t).1 = place))) ∧
    (∀ (c : RuntimeController) (pid : String) (t : Token),
      (c.placeTypes.find? (fun kv => kv.1 == pid) = none →
        c.injectToken pid t = (c, 0)) ∧
      (∀ pid' s, c.placeTypes.find? (fun kv => kv.1 == pid) = some (pid', s) →
        (∀ v n, s ≠ PlaceTypeState.entrypoint v n) →
        c.injectToken pid t = (c, 0))) := by
  refine ⟨?_, ?_, ?_⟩
  · intro ops q hq
    have h := runQueueOps_ids ops q
    exact ⟨h.2, fun i hi => Nat.le_trans hq (h.1 i hi)⟩
  · intro place validator cnt t hnext
    have hone : place.tokens.nextId ≠ 0 := by omega
    cases validator with
    | none =>
      by_cases hacc : place.canAcceptToken = true
      · rw [inject_accept_eq place cnt t hacc]
        refine ⟨⟨fun h => absurd h hone, ?_⟩, fun _ => rfl, fun h => absurd h hone⟩
        rintro (⟨v, hv, _⟩ | hv)
        · exact Option.noConfusion hv
        · rw [hacc] at hv; exact Bool.noConfusion hv
      · have hacc' : place.canAcceptToken = false := by
          simp only [Bool.not_eq_true] at hacc; exact hacc
        rw [inject_full_eq place cnt t hacc']
        exact ⟨⟨fun _ => Or.inr hacc', fun _ => rfl⟩,
          fun h => absurd rfl h, fun _ => rfl⟩
    | some v =>
      by_cases hval : v t = true
      · by_cases hacc : place.canAcceptToken = true
        · rw [inject_accept_val_eq place cnt t v hval hacc]
          refine ⟨⟨fun h => absurd h hone, ?_⟩, fun _ => rfl, fun h => absurd h hone⟩
          rintro (⟨v2, hv2, hvf⟩ | hv2)
          · injection hv2 with hv2
            subst hv2
            rw [hval] at hvf
            exact Bool.noConfusion hvf
          · rw [hacc] at hv2; exact Bool.noConfusion hv2
        · have hacc' : place.canAcceptToken = false := by
            simp only [Bool.not_eq_true] at hacc; exact hacc
          rw [inject_full_val_eq place cnt t v hval hacc']
          exact ⟨⟨fun _ => Or.inr hacc', fun _ => rfl⟩,
            fun h => absurd rfl h, fun _ => rfl⟩
      · have hval' : v t = false := by
          simp only [Bool.not_eq_true] at hval; exact hval
        rw [inject_reject_eq place cnt t v hval']
        exact ⟨⟨fun _ => Or.inl ⟨v, rfl, hval'⟩, fun _ => rfl⟩,
          fun h => absurd rfl h, fun _ => rfl⟩
  · intro c pid t
    constructor
    · intro h
      unfold RuntimeController.injectToken
      rw [h]
    · intro pid' s h hne
      unfold RuntimeController.injectToken
      rw [h]
      cases s with
      | entrypoint v n => exact absurd rfl (hne v n)
      | plain => rfl
      | exitLogger n => rfl
      | resourcePool n => rfl
      | waitWithTimeout a b c => rfl
      | actionPlace a b => rfl



/-- C10 witness: the theorem applied to a concrete push/pop/push sequence from
a fresh queue and to an unknown entrypoint id. -/
theorem c10_token_ids_and_zero_sentinel_witness :
    (runQueueOps {} [QueueOp.pushOp {}, QueueOp.popOp, QueueOp.pushOp {}]).2.Chain'
      (· < ·) ∧
    RuntimeController.injectToken {} "missing" {} = ({}, 0) :=
  ⟨(c10_token_ids_and_zero_sentinel.1
      [QueueOp.pushOp {}, QueueOp.popOp, QueueOp.pushOp {}] {} (by decide)).1,
   (c10_token_ids_and_zero_sentinel.2.2 {} "missing" {}).1 rfl⟩

/-- Helper: the state-machine step never touches the policy, the id, the
callback flag or the callback presence of a context. -/
theorem processAction_frame (now : Nat) (inv : Option Invoker) (ctx : ActionContext) :
    ((processAction now inv ctx).1.policy = ctx.policy) ∧
    ((processAction now inv ctx).1.id = ctx.id) ∧
    ((processAction now inv ctx).1.callbackInvoked = ctx.callbackInvoked) ∧
    ((processAction now inv ctx).1.hasCallback = ctx.hasCallback) := by
  cases hst : ctx.state <;> simp only [processAction, hst]
  case pending =>
    split
    · cases inv with
      | none => first
        | (refine ⟨?_, ?_, ?_, ?_⟩ <;> trivial)
        | trivial
      | some f =>
        simp only [ActionContext.start]
        rcases hf : f ctx.token with ⟨res, tok⟩
        simp only [hf]
        cases hres : res.status <;> simp only [ActionContext.update, hres] <;>
          split <;> first
        | (refine ⟨?_, ?_, ?_, ?_⟩ <;> trivial)
        | trivial
    · first
        | (refine ⟨?_, ?_, ?_, ?_⟩ <;> trivial)
        | trivial
  case running =>
    split
    · simp only [ActionContext.update, ActionResult.errorMessageResult]
      split <;> first
        | (refine ⟨?_, ?_, ?_, ?_⟩ <;> trivial)
        | trivial
    · cases inv with
      | none => first
        | (refine ⟨?_, ?_, ?_, ?_⟩ <;> trivial)
        | trivial
      | some f =>
        rcases hf : f ctx.token with ⟨res, tok⟩
        simp only [hf]
        cases hres : res.status <;> simp only [ActionContext.update, hres] <;>
          split <;> first
        | (refine ⟨?_, ?_, ?_, ?_⟩ <;> trivial)
        | trivial
  all_goals first
        | (refine ⟨?_, ?_, ?_, ?_⟩ <;> trivial)
        | trivial

/-- Helper: one state-machine step preserves the attempt-count cap, keeps an
attempt in reserve while Pending, and, for an invoker that never reports
InProgress, leaves Running immediately and calls the invoker exactly when an
attempt is started. -/
theorem processAction_bounds (now : Nat) (inv : Option Invoker) (ctx : ActionContext)
    (h1 : ctx.attemptCount ≤ ctx.policy.maxRetries + 1)
    (h2 : ctx.state = ActionState.pending →
      ctx.attemptCount ≤ ctx.policy.maxRetries) :
    ((processAction now inv ctx).1.attemptCount ≤ ctx.policy.maxRetries + 1) ∧
    ((processAction now inv ctx).1.state = ActionState.pending →
      (processAction now inv ctx).1.attemptCount ≤ ctx.policy.maxRetries) ∧
    (∀ f, inv = some f → NonIP f → ctx.state ≠ ActionState.running →
      (processAction now inv ctx).1.state ≠ ActionState.running ∧
      (processAction now inv ctx).1.attemptCount =
        ctx.attemptCount + (if (processAction now inv ctx).2 then 1 else 0)) := by
  cases hst : ctx.state <;> simp only [processAction, hst]
  case pending =>
    have hac : ctx.attemptCount ≤ ctx.policy.maxRetries := h2 hst
    split
    · cases inv with
      | none =>
        simp only [ActionContext.start]
        refine ⟨by omega, by intro h; exact absurd h (by simp), ?_⟩
        intro f hf
        exact absurd hf (by simp)
      | some f =>
        simp only [ActionContext.start]
        rcases hf : f ctx.token with ⟨res, tok⟩
        simp only [hf]
        cases hres : res.status
        case inProgress =>
          simp only [ActionContext.update, hres]
          refine ⟨by first | omega | (simp; omega) | simp, by intro h; exact absurd h (by simp), ?_⟩
          intro f' hf' hnip _
          injection hf' with hf'
          subst hf'
          have := hnip ctx.token
          rw [hf] at this
          exact absurd hres this
        case success =>
          simp only [ActionContext.update, hres]
          refine ⟨by first | omega | (simp; omega) | simp, by intro h; exact absurd h (by simp), ?_⟩
          intro f' hf' hnip _
          exact ⟨by simp, by simp⟩
        case failure =>
          simp only [ActionContext.update, hres]
          split
          · rename_i hcr
            have hcr2 := hcr.2
            simp only [ActionContext.canRetry] at hcr2
            by_cases hle : ctx.policy.maxRetries + 1 ≤ ctx.attemptCount + 1
            · simp only [if_pos hle] at hcr2
              exact absurd hcr2 (by simp)
            · simp only [ActionContext.scheduleRetry]
              refine ⟨by first | omega | (simp; omega) | simp, by intro _; first | omega | (simp; omega), ?_⟩
              intro f' hf' hnip _
              exact ⟨by simp, by simp⟩
          · refine ⟨by first | omega | (simp; omega) | simp, by intro h; exact absurd h (by simp), ?_⟩
            intro f' hf' hnip _
            exact ⟨by simp, by simp⟩
        case error =>
          simp only [ActionContext.update, hres]
          split
          · rename_i hcr
            have hcr2 := hcr.2
            simp only [ActionContext.canRetry] at hcr2
            by_cases hle : ctx.policy.maxRetries + 1 ≤ ctx.attemptCount + 1
            · simp only [if_pos hle] at hcr2
              exact absurd hcr2 (by simp)
            · simp only [ActionContext.scheduleRetry]
              refine ⟨by first | omega | (simp; omega) | simp, by intro _; first | omega | (simp; omega), ?_⟩
              intro f' hf' hnip _
              exact ⟨by simp, by simp⟩
          · refine ⟨by first | omega | (simp; omega) | simp, by intro h; exact absurd h (by simp), ?_⟩
            intro f' hf' hnip _
            exact ⟨by simp, by simp⟩
    · refine ⟨h1, fun _ => hac, ?_⟩
      intro f hf hnip _
      refine ⟨by rw [hst]; simp, by simp⟩
  case running =>
    split
    · simp only [ActionContext.update, ActionResult.errorMessageResult]
      split
      · rename_i hcr
        have hcr2 := hcr
        simp only [ActionContext.canRetry] at hcr2
        by_cases hle : ctx.policy.maxRetries + 1 ≤ ctx.attemptCount
        · simp only [if_pos hle] at hcr2
          exact absurd hcr2 (by simp)
        · simp only [ActionContext.scheduleRetry]
          refine ⟨by first | omega | (simp; omega) | simp, by intro _; first | omega | (simp; omega), ?_⟩
          intro f hf hnip hr
          exact absurd rfl hr
      · refine ⟨by first | omega | (simp; omega) | simp, by intro h; simp at h, ?_⟩
        intro f hf hnip hr
        exact absurd rfl hr
    · cases inv with
      | none =>
        refine ⟨h1, ?_, ?_⟩
        · intro h
          have h2 : ctx.state = ActionState.pending := h
          rw [hst] at h2
          exact absurd h2 (by simp)
        · intro f hf
          exact absurd hf (by simp)
      | some f =>
        rcases hf : f ctx.token with ⟨res, tok⟩
        simp only [hf]
        cases hres : res.status
        case inProgress =>
          simp only [ActionContext.update, hres]
          refine ⟨by first | omega | (simp; omega) | simp, by intro h; simp at h, ?_⟩
          intro f' hf' hnip hr
          exact absurd rfl hr
        case success =>
          simp only [ActionContext.update, hres]
          refine ⟨by first | omega | (simp; omega) | simp, by intro h; simp at h, ?_⟩
          intro f' hf' hnip hr
          exact absurd rfl hr
        case failure =>
          simp only [ActionContext.update, hres]
          split
          · rename_i hcr
            have hcr2 := hcr.2
            simp only [ActionContext.canRetry] at hcr2
            by_cases hle : ctx.policy.maxRetries + 1 ≤ ctx.attemptCount
            · simp only [if_pos hle] at hcr2
              exact absurd hcr2 (by simp)
            · simp only [ActionContext.scheduleRetry]
              refine ⟨by first | omega | (simp; omega) | simp, by intro _; first | omega | (simp; omega), ?_⟩
              intro f' hf' hnip hr
              exact absurd rfl hr
          · refine ⟨by first | omega | (simp; omega) | simp, by intro h; simp at h, ?_⟩
            intro f' hf' hnip hr
            exact absurd rfl hr
        case error =>
          simp only [ActionContext.update, hres]
          split
          · rename_i hcr
            have hcr2 := hcr.2
            simp only [ActionContext.canRetry] at hcr2
            by_cases hle : ctx.policy.maxRetries + 1 ≤ ctx.attemptCount
            · simp only [if_pos hle] at hcr2
              exact absurd hcr2 (by simp)
            · simp only [ActionContext.scheduleRetry]
              refine ⟨by first | omega | (simp; omega) | simp, by intro _; first | omega | (simp; omega), ?_⟩
              intro f' hf' hnip hr
              exact absurd rfl hr
          · refine ⟨by first | omega | (simp; omega) | simp, by intro h; simp at h, ?_⟩
            intro f' hf' hnip hr
            exact absurd rfl hr
  all_goals {
    refine ⟨h1, by intro h; exact absurd h (by simp), ?_⟩
    intro f hf hnip _
    refine ⟨by simp, by simp⟩
  }

/-- Helper: invoking the callback only flips the callbackInvoked flag. -/
theorem invokeCallback_fields (ctx : ActionContext) :
    ((invokeCallback ctx).1.state = ctx.state) ∧
    ((invokeCallback ctx).1.attemptCount = ctx.attemptCount) ∧
    ((invokeCallback ctx).1.policy = ctx.policy) ∧
    ((invokeCallback ctx).1.id = ctx.id) ∧
    ((invokeCallback ctx).1.hasCallback = ctx.hasCallback) := by
  unfold invokeCallback
  split <;> exact ⟨rfl, rfl, rfl, rfl, rfl⟩

/-- Helper: the first phase of poll preserves the retry invariant. -/
theorem pollPhase1_retryInv (now : Nat) :
    ∀ records : List InFlightAction,
      (∀ r ∈ records, RecordRetryInv r) →
      ∀ r' ∈ (pollPhase1 now records).1, RecordRetryInv r'
  | [], _, r', hr' => absurd hr' (List.not_mem_nil r')
  | r :: rest, h, r', hr' => by
    have hr := h r (List.mem_cons_self r rest)
    have hframe := processAction_frame now r.invoker r.context
    have hb := processAction_bounds now r.invoker r.context hr.1 hr.2.1
    simp only [pollPhase1] at hr'
    rcases List.mem_cons.mp hr' with he | hrest
    · subst he
      refine ⟨?_, ?_, ?_⟩
      · simp only [hframe.1]
        exact hb.1
      · intro hpend
        simp only [hframe.1]
        exact hb.2.1 hpend
      · intro f hf hnip
        have hst := (hr.2.2 f hf hnip).1
        have hcalls := (hr.2.2 f hf hnip).2
        have hs := hb.2.2 f hf hnip hst
        refine ⟨hs.1, ?_⟩
        rw [hs.2, hcalls]
    · exact pollPhase1_retryInv now rest
        (fun q hq => h q (List.mem_cons_of_mem r hq)) r' hrest

/-- Helper: the second phase of poll preserves the retry invariant, carrying
it onto the completed records it logs. -/
theorem pollPhase2_retryInv (ids : List Nat) :
    ∀ (ex : ActionExecutor) (events : List CallbackEvent),
      (∀ r ∈ ex.inFlight, RecordRetryInv r) →
      (∀ rec ∈ ex.completedLog, CompletedRetryInv rec) →
      (∀ r ∈ (pollPhase2 ex events ids).1.inFlight, RecordRetryInv r) ∧
      (∀ rec ∈ (pollPhase2 ex events ids).1.completedLog, CompletedRetryInv rec) := by
  induction ids with
  | nil => exact fun ex events h1 h2 => ⟨h1, h2⟩
  | cons i rest ih =>
    intro ex events h1 h2
    simp only [pollPhase2]
    cases hfind : ex.inFlight.find? (fun r => r.context.id = i) with
    | none => exact ih ex events h1 h2
    | some r =>
      have hrmem : r ∈ ex.inFlight := List.mem_of_find?_eq_some hfind
      have hr := h1 r hrmem
      apply ih
      · intro q hq
        exact h1 q (List.mem_of_mem_filter hq)
      · intro rec hrec
        rcases List.mem_append.mp hrec with hold | hnew
        · exact h2 rec hold
        · rw [List.mem_singleton] at hnew
          subst hnew
          have hicb := invokeCallback_fields r.context
          refine ⟨?_, ?_⟩
          · simp only [hicb.2.1, hicb.2.2.1]
            exact hr.1
          · intro f hf hnip
            simp only [hicb.2.1]
            exact (hr.2.2 f hf hnip).2

/-- Helper: every executor operation preserves the retry invariant. -/
theorem applyExecOp_retryInv (ex : ActionExecutor) (op : ExecOp)
    (h : ExecRetryInv ex) : ExecRetryInv (applyExecOp ex op) := by
  cases op with
  | startOp n t i p cb hc =>
    refine ⟨?_, h.2⟩
    intro r hr
    simp only [applyExecOp, ActionExecutor.startAction] at hr
    rcases List.mem_append.mp hr with hold | hnew
    · exact h.1 r hold
    · rw [List.mem_singleton] at hnew
      subst hnew
      refine ⟨by simp, by intro _; simp, ?_⟩
      intro f hf hnip
      exact ⟨by simp, by simp⟩
  | pollOp now =>
    have h1 := pollPhase1_retryInv now ex.inFlight h.1
    exact pollPhase2_retryInv _ _ _ h1 h.2
  | cancelOp i =>
    refine ⟨?_, h.2⟩
    intro r hr
    simp only [applyExecOp, ActionExecutor.cancelId, List.mem_map] at hr
    obtain ⟨q, hq, he⟩ := hr
    have hinv := h.1 q hq
    subst he
    by_cases hid : q.context.id = i
    · simp only [hid, if_pos rfl]
      refine ⟨hinv.1, by intro hp; exact absurd hp (by simp [ActionContext.cancel]), ?_⟩
      intro f hf hnip
      exact ⟨by simp [ActionContext.cancel], (hinv.2.2 f hf hnip).2⟩
    · simp only [if_neg hid]
      exact hinv
  | cancelAllOp =>
    refine ⟨?_, h.2⟩
    intro r hr
    simp only [applyExecOp, ActionExecutor.cancelAll, List.mem_map] at hr
    obtain ⟨q, hq, he⟩ := hr
    have hinv := h.1 q hq
    subst he
    refine ⟨hinv.1, by intro hp; exact absurd hp (by simp [ActionContext.cancel]), ?_⟩
    intro f hf hnip
    exact ⟨by simp [ActionContext.cancel], (hinv.2.2 f hf hnip).2⟩

/-- Helper: the retry invariant holds along any operation sequence. -/
theorem runExecOps_retryInv (ops : List ExecOp) :
    ∀ ex : ActionExecutor, ExecRetryInv ex → ExecRetryInv (runExecOps ex ops) := by
  induction ops with
  | nil => exact fun ex h => h
  | cons op rest ih => exact fun ex h => ih _ (applyExecOp_retryInv ex op h)

/-- C6 counterexample.  An invoker that always returns InProgress on a policy
with max_retries 0 is called once per poll without the context ever reaching
a terminal state: after two polls it has been called twice, exceeding the
claimed bound of max_retries + 1 = 1 calls. -/
theorem c6_inprogress_unbounded :
    inProgressTwoPolls.totalInvokerCalls = 2 ∧
    inProgressTwoPolls.inFlight.map (fun r => r.invokerCalls) = [2] ∧
    inProgressTwoPolls.inFlight.map (fun r => r.context.policy.maxRetries) = [0] ∧
    inProgressTwoPolls.inFlight.map (fun r => r.context.attemptCount) = [1] ∧
    inProgressTwoPolls.completedLog = [] := by
  refine ⟨rfl, rfl, rfl, rfl, rfl⟩

/-- C6 amended.  Over any sequence of executor operations, attempt_count never
exceeds max_retries + 1, and for an invoker that never returns InProgress the
number of invoker calls equals attempt_count, hence is at most
max_retries + 1 (both for in-flight and for completed actions); in the
concrete scenario with an always-Error invoker and retries = 2 the invoker is
called exactly 3 times and the token lands in the error sub-queue. -/
theorem c6_retry_bound (opsDone : List ExecOp) :
    (∀ r ∈ (runExecOps {} opsDone).inFlight,
      r.context.attemptCount ≤ r.context.policy.maxRetries + 1 ∧
      (∀ f, r.invoker = some f → NonIP f →
        r.invokerCalls ≤ r.context.policy.maxRetries + 1)) ∧
    (∀ rec ∈ (runExecOps {} opsDone).completedLog,
      rec.attemptCount ≤ rec.maxRetries + 1 ∧
      (∀ f, rec.invoker = some f → NonIP f →
        rec.invokerCalls ≤ rec.maxRetries + 1)) ∧
    (flakyRun.executor.totalInvokerCalls = 3 ∧
      ((flakyRun.net.getPlace? "act").map (fun p => p.subError.size) = some 1) ∧
      flakyRun.executor.completedLog.map
        (fun rec => (rec.attemptCount, rec.invokerCalls, rec.maxRetries)) = [(3, 3, 2)] ∧
      flakyRun.executor.inFlightCount = 0) := by
  have hinv := runExecOps_retryInv opsDone {}
    ⟨fun r hr => absurd hr (List.not_mem_nil r), fun rec hrec => absurd hrec (List.not_mem_nil rec)⟩
  refine ⟨?_, ?_, rfl, rfl, rfl, rfl⟩
  · intro r hr
    have h := hinv.1 r hr
    refine ⟨h.1, ?_⟩
    intro f hf hnip
    rw [(h.2.2 f hf hnip).2]
    exact h.1
  · intro rec hrec
    have h := hinv.2 rec hrec
    refine ⟨h.1, ?_⟩
    intro f hf hnip
    rw [h.2 f hf hnip]
    exact h.1

/-- C6 witness: the bound applied to the record created by a concrete
startAction, and the concrete flaky-run call count. -/
theorem c6_retry_bound_witness :
    c6StartRecord.context.attemptCount ≤ c6StartRecord.context.policy.maxRetries + 1 ∧
    flakyRun.executor.totalInvokerCalls = 3 :=
  ⟨((c6_retry_bound c6StartOps).1 c6StartRecord (List.mem_singleton.mpr rfl)).1,
    (c6_retry_bound []).2.2.1⟩

/-- Helper: the first phase of poll preserves the id sequence. -/
theorem pollPhase1_flightIds (now : Nat) :
    ∀ records : List InFlightAction,
      (pollPhase1 now records).1.map (fun r => r.context.id) =
        records.map (fun r => r.context.id)
  | [] => rfl
  | r :: rest => by
    simp only [pollPhase1, List.map_cons]
    rw [pollPhase1_flightIds now rest]
    rw [(processAction_frame now r.invoker r.context).2.1]

/-- Helper: the first phase of poll never fires a callback. -/
theorem pollPhase1_invoked (now : Nat) :
    ∀ records : List InFlightAction,
      (∀ r ∈ records, r.context.callbackInvoked = false) →
      ∀ r' ∈ (pollPhase1 now records).1, r'.context.callbackInvoked = false
  | [], _, r', hr' => absurd hr' (List.not_mem_nil r')
  | r :: rest, h, r', hr' => by
    simp only [pollPhase1] at hr'
    rcases List.mem_cons.mp hr' with he | hrest
    · subst he
      simp only [(processAction_frame now r.invoker r.context).2.2.1]
      exact h r (List.mem_cons_self r rest)
    · exact pollPhase1_invoked now rest
        (fun q hq => h q (List.mem_cons_of_mem r hq)) r' hrest

/-- Helper: the second phase of poll preserves the callback invariant: each
completed record fires its callback once as it is removed. -/
theorem pollPhase2_callbackInv (ids : List Nat) :
    ∀ (ex : ActionExecutor) (events : List CallbackEvent),
      CallbackInv ex → CallbackInv (pollPhase2 ex events ids).1 := by
  induction ids with
  | nil => exact fun ex events h => h
  | cons i rest ih =>
    intro ex events h
    simp only [pollPhase2]
    cases hfind : ex.inFlight.find? (fun r => r.context.id = i) with
    | none => exact ih ex events h
    | some r =>
      apply ih
      have hrmem : r ∈ ex.inFlight := List.mem_of_find?_eq_some hfind
      have hrid : r.context.id = i := by
        have := List.find?_some hfind
        exact of_decide_eq_true this
      have hinvoked : r.context.callbackInvoked = false := h.1 r hrmem
      have hicb := invokeCallback_fields r.context
      have hiFlight : i ∈ flightIds ex :=
        List.mem_map.mpr ⟨r, hrmem, hrid⟩
      have hiDone : i ∉ doneIds ex := fun hdone => absurd hiFlight (h.2.2.2.2.2.1 i hdone)
      have hiNext : i < ex.nextId := h.2.2.2.1 i hiFlight
      have hflightSub :
          List.Sublist
            ((ex.inFlight.filter (fun r' => r'.context.id ≠ i)).map (fun r => r.context.id))
            (flightIds ex) :=
        List.Sublist.map _ (List.filter_sublist _)
      have hev : (invokeCallback r.context).2 =
          (if r.context.hasCallback then
            some { id := r.context.id, result := r.context.lastResult,
                   token := r.context.token, place := none } else none) := by
        unfold invokeCallback
        rw [hinvoked]
        by_cases hcb : r.context.hasCallback
        · simp [hcb]
        · simp [hcb]
      refine ⟨?_, ?_, ?_, ?_, ?_, ?_, ?_⟩
      · intro q hq
        exact h.1 q (List.mem_of_mem_filter hq)
      · exact List.Nodup.sublist hflightSub h.2.1
      · simp only [doneIds, List.map_append, List.map_cons, List.map_nil]
        rw [List.nodup_append]
        refine ⟨h.2.2.1, List.nodup_singleton _, ?_⟩
        intro a ha hb
        rw [List.mem_singleton] at hb
        subst hb
        rw [hicb.2.2.2.1] at ha
        rw [hrid] at ha
        exact hiDone ha
      · intro j hj
        exact h.2.2.2.1 j (List.Sublist.mem hj hflightSub)
      · intro j hj
        simp only [doneIds, List.map_append, List.map_cons, List.map_nil,
          List.mem_append, List.mem_singleton] at hj
        rcases hj with hj | hj
        · exact h.2.2.2.2.1 j hj
        · rw [hj, hicb.2.2.2.1, hrid]
          exact hiNext
      · intro j hj
        simp only [doneIds, List.map_append, List.map_cons, List.map_nil,
          List.mem_append, List.mem_singleton] at hj
        intro hflight
        simp only [flightIds, List.mem_map] at hflight
        obtain ⟨q, hq, hqid⟩ := hflight
        have hqne := (List.mem_filter.mp hq).2
        rcases hj with hj | hj
        · have := h.2.2.2.2.2.1 j hj
          exact this (List.mem_map.mpr ⟨q, List.mem_of_mem_filter hq, hqid⟩)
        · rw [hqid] at hqne
          simp at hqne
          exact hqne (hj.trans (by rw [hicb.2.2.2.1, hrid]))
      · have hemit : ex.emittedCallbacks.map (fun e => e.id) =
            (ex.completedLog.filter (fun r => r.hasCallback)).map (fun r => r.id) :=
          h.2.2.2.2.2.2
        simp only [emittedIds, List.map_append, List.filter_append, hev,
          hicb.2.2.2.2, hicb.2.2.2.1, List.filter_cons]
        by_cases hcb : r.context.hasCallback = true
        · simp [hcb, hemit]
        · have hcb' : r.context.hasCallback = false := by
            simp only [Bool.not_eq_true] at hcb; exact hcb
          simp [hcb', hemit]

/-- Helper: every executor operation preserves the callback invariant. -/
theorem applyExecOp_callbackInv (ex : ActionExecutor) (op : ExecOp)
    (h : CallbackInv ex) : CallbackInv (applyExecOp ex op) := by
  cases op with
  | startOp n t i p cb hc =>
    simp only [applyExecOp, ActionExecutor.startAction]
    refine ⟨?_, ?_, ?_, ?_, ?_, ?_, ?_⟩
    · intro r hr
      rcases List.mem_append.mp hr with hold | hnew
      · exact h.1 r hold
      · rw [List.mem_singleton] at hnew
        subst hnew
        rfl
    · simp only [flightIds, List.map_append, List.map_cons, List.map_nil]
      rw [List.nodup_append]
      refine ⟨h.2.1, List.nodup_singleton _, ?_⟩
      intro a ha hb
      rw [List.mem_singleton] at hb
      have hb2 : a = ex.nextId := hb
      have hlt := h.2.2.2.1 a ha
      omega
    · exact h.2.2.1
    · intro j hj
      simp only [flightIds, List.map_append, List.map_cons, List.map_nil,
        List.mem_append, List.mem_singleton] at hj
      rcases hj with hj | hj
      · have hlt := h.2.2.2.1 j hj
        exact (show j < ex.nextId + 1 by omega)
      · have hj2 : j = ex.nextId := hj
        exact (show j < ex.nextId + 1 by omega)
    · intro j hj
      have hlt := h.2.2.2.2.1 j hj
      exact (show j < ex.nextId + 1 by omega)
    · intro j hj
      have hflight := h.2.2.2.2.2.1 j hj
      have hfresh := h.2.2.2.2.1 j hj
      simp only [flightIds, List.map_append, List.map_cons, List.map_nil,
        List.mem_append, List.mem_singleton]
      intro hcon
      rcases hcon with hcon | hcon
      · exact hflight hcon
      · have hcon2 : j = ex.nextId := hcon
        omega
    · exact h.2.2.2.2.2.2
  | pollOp now =>
    simp only [applyExecOp, ActionExecutor.poll]
    apply pollPhase2_callbackInv
    refine ⟨?_, ?_, h.2.2.1, ?_, h.2.2.2.2.1, ?_, h.2.2.2.2.2.2⟩
    · intro r hr
      exact pollPhase1_invoked now ex.inFlight h.1 r hr
    · show ((pollPhase1 now ex.inFlight).1.map (fun r => r.context.id)).Nodup
      rw [pollPhase1_flightIds now ex.inFlight]
      exact h.2.1
    · intro j hj
      have hj2 : j ∈ (pollPhase1 now ex.inFlight).1.map (fun r => r.context.id) := hj
      rw [pollPhase1_flightIds now ex.inFlight] at hj2
      exact h.2.2.2.1 j hj2
    · intro j hj
      have hfl := h.2.2.2.2.2.1 j hj
      intro hcon
      apply hfl
      have hcon2 : j ∈ (pollPhase1 now ex.inFlight).1.map (fun r => r.context.id) := hcon
      rw [pollPhase1_flightIds now ex.inFlight] at hcon2
      exact hcon2
  | cancelOp i =>
    simp only [applyExecOp, ActionExecutor.cancelId]
    have hids : (ex.inFlight.map
        (fun r => if r.context.id = i then { r with context := r.context.cancel } else r)).map
          (fun r => r.context.id) = flightIds ex := by
      rw [List.map_map]
      apply List.map_congr_left
      intro r _
      by_cases hid : r.context.id = i
      · simp [hid, ActionContext.cancel]
      · simp [hid]
    refine ⟨?_, ?_, h.2.2.1, ?_, h.2.2.2.2.1, ?_, h.2.2.2.2.2.2⟩
    · intro r hr
      rcases List.mem_map.mp hr with ⟨q, hq, he⟩
      subst he
      by_cases hid : q.context.id = i
      · simp only [hid, if_pos rfl]
        exact h.1 q hq
      · simp only [if_neg hid]
        exact h.1 q hq
    · have hres : ((ex.inFlight.map
          (fun r => if r.context.id = i then { r with context := r.context.cancel } else r)).map
            (fun r => r.context.id)).Nodup := by
        rw [hids]
        exact h.2.1
      exact hres
    · intro j hj
      have hj2 : j ∈ (ex.inFlight.map
          (fun r => if r.context.id = i then { r with context := r.context.cancel } else r)).map
            (fun r => r.context.id) := hj
      rw [hids] at hj2
      exact h.2.2.2.1 j hj2
    · intro j hj
      have hne := h.2.2.2.2.2.1 j hj
      intro hcon
      apply hne
      have hcon2 : j ∈ (ex.inFlight.map
          (fun r => if r.context.id = i then { r with context := r.context.cancel } else r)).map
            (fun r => r.context.id) := hcon
      rw [hids] at hcon2
      exact hcon2
  | cancelAllOp =>
    simp only [applyExecOp, ActionExecutor.cancelAll]
    have hids : (ex.inFlight.map (fun r => { r with context := r.context.cancel })).map
          (fun r => r.context.id) = flightIds ex := by
      rw [List.map_map]
      apply List.map_congr_left
      intro r _
      rfl
    refine ⟨?_, ?_, h.2.2.1, ?_, h.2.2.2.2.1, ?_, h.2.2.2.2.2.2⟩
    · intro r hr
      rcases List.mem_map.mp hr with ⟨q, hq, he⟩
      subst he
      exact h.1 q hq
    · have hres : ((ex.inFlight.map (fun r => { r with context := r.context.cancel })).map
          (fun r => r.context.id)).Nodup := by
        rw [hids]
        exact h.2.1
      exact hres
    · intro j hj
      have hj2 : j ∈ (ex.inFlight.map (fun r => { r with context := r.context.cancel })).map
          (fun r => r.context.id) := hj
      rw [hids] at hj2
      exact h.2.2.2.1 j hj2
    · intro j hj
      have hne := h.2.2.2.2.2.1 j hj
      intro hcon
      apply hne
      have hcon2 : j ∈ (ex.inFlight.map (fun r => { r with context := r.context.cancel })).map
          (fun r => r.context.id) := hcon
      rw [hids] at hcon2
      exact hcon2

/-- Helper: the callback invariant holds along any operation sequence. -/
theorem runExecOps_callbackInv (ops : List ExecOp) :
    ∀ ex : ActionExecutor, CallbackInv ex → CallbackInv (runExecOps ex ops) := by
  induction ops with
  | nil => exact fun ex h => h
  | cons op rest ih => exact fun ex h => ih _ (applyExecOp_callbackInv ex op h)

/-- C8.  Over any sequence of executor operations from the fresh executor: no
callback is ever executed twice for the same ActionContext; a context removed
after reaching a terminal state whose record carries a callback has its
callback executed exactly once; and callbacks are executed only for completed
(removed) contexts. -/
theorem c8_callback_exactly_once (ops : List ExecOp) :
    (emittedIds (runExecOps {} ops)).Nodup ∧
    (∀ rec ∈ (runExecOps {} ops).completedLog, rec.hasCallback = true →
      (emittedIds (runExecOps {} ops)).count rec.id = 1) ∧
    (∀ j ∈ emittedIds (runExecOps {} ops), j ∈ doneIds (runExecOps {} ops)) := by
  have hinv : CallbackInv (runExecOps {} ops) := by
    apply runExecOps_callbackInv
    refine ⟨?_, ?_, ?_, ?_, ?_, ?_, rfl⟩ <;>
      first
      | (intro r hr; exact absurd hr (List.not_mem_nil r))
      | exact List.nodup_nil
  have hemit := hinv.2.2.2.2.2.2
  have hsub : List.Sublist
      (((runExecOps {} ops).completedLog.filter (fun r => r.hasCallback)).map
        (fun r => r.id))
      (doneIds (runExecOps {} ops)) :=
    List.Sublist.map _ (List.filter_sublist _)
  have hnodupFiltered : (((runExecOps {} ops).completedLog.filter
      (fun r => r.hasCallback)).map (fun r => r.id)).Nodup :=
    List.Nodup.sublist hsub hinv.2.2.1
  refine ⟨?_, ?_, ?_⟩
  · rw [hemit]
    exact hnodupFiltered
  · intro rec hrec hcb
    rw [hemit]
    apply List.count_eq_one_of_mem hnodupFiltered
    exact List.mem_map.mpr ⟨rec, List.mem_filter.mpr ⟨hrec, by rw [hcb]⟩, rfl⟩
  · intro j hj
    rw [hemit] at hj
    exact List.Sublist.mem hj hsub

/-- C8 witness: the theorem applied to the completed record of a concrete
start-then-poll run. -/
theorem c8_callback_exactly_once_witness :
    (emittedIds (runExecOps {} c8Ops)).count 1 = 1 ∧
    emittedIds (runExecOps {} c8Ops) = [1] := by
  constructor
  · exact (c8_callback_exactly_once c8Ops).2.1
      { id := 1, state := ActionState.error, attemptCount := 1, invokerCalls := 1,
        hasCallback := true, maxRetries := 0, invoker := some flakyInvoker }
      (List.mem_singleton.mpr rfl) rfl
  · rfl

theorem transBefore_iff (a b : Transition) :
    transBefore a b = true ↔
      (b.priority < a.priority ∨
        (a.priority = b.priority ∧ a.lastFiredEpoch < b.lastFiredEpoch)) := by
  by_cases h : a.priority = b.priority <;> simp [transBefore, h]

theorem transBefore_false_iff (a b : Transition) :
    transBefore a b = false ↔
      ¬(b.priority < a.priority ∨
        (a.priority = b.priority ∧ a.lastFiredEpoch < b.lastFiredEpoch)) := by
  rw [← Bool.not_eq_true, transBefore_iff]

theorem transBefore_asymm (a b : Transition) (h : transBefore a b = true) :
    transBefore b a = false := by
  rw [transBefore_iff] at h
  rw [transBefore_false_iff]
  omega

theorem transBefore_negtrans (t u x : Transition) (h1 : transBefore t u = true)
    (h2 : transBefore x u = false) : transBefore x t = false := by
  rw [transBefore_iff] at h1
  rw [transBefore_false_iff] at h2
  rw [transBefore_false_iff]
  omega

theorem transBefore_total (a b : Transition) :
    transBefore a b = false ∨ transBefore b a = false := by
  by_cases h : transBefore a b = true
  · exact Or.inr (transBefore_asymm a b h)
  · exact Or.inl (by simp only [Bool.not_eq_true] at h; exact h)

theorem mem_insertTrans (t x : Transition) :
    ∀ l : List Transition, x ∈ insertTrans t l ↔ x = t ∨ x ∈ l
  | [] => by simp [insertTrans]
  | u :: rest => by
    unfold insertTrans
    split
    · simp [List.mem_cons]
    · simp only [List.mem_cons, mem_insertTrans t x rest]
      tauto

theorem pairwise_insertTrans (t : Transition) :
    ∀ l : List Transition,
      l.Pairwise (fun a b => transBefore b a = false) →
      (insertTrans t l).Pairwise (fun a b => transBefore b a = false) := by
  intro l
  induction l with
  | nil => intro _; simp [insertTrans]
  | cons u rest ih =>
    intro hpw
    unfold insertTrans
    split
    · rename_i htu
      refine List.Pairwise.cons ?_ hpw
      intro y hy
      rcases List.mem_cons.mp hy with he | hrest
      · subst he
        exact transBefore_asymm t y htu
      · have hu := (List.pairwise_cons.mp hpw).1 y hrest
        exact transBefore_negtrans t u y htu hu
    · rename_i htu
      have htu' : transBefore t u = false := by
        simp only [Bool.not_eq_true] at htu
        exact htu
      refine List.Pairwise.cons ?_ ?_
      · intro y hy
        rcases (mem_insertTrans t y rest).mp hy with he | hrest
        · subst he
          exact htu'
        · exact (List.pairwise_cons.mp hpw).1 y hrest
      · exact ih (List.pairwise_cons.mp hpw).2

theorem pairwise_sortTransitions :
    ∀ l : List Transition,
      (sortTransitions l).Pairwise (fun a b => transBefore b a = false)
  | [] => List.Pairwise.nil
  | t :: rest => by
    unfold sortTransitions
    exact pairwise_insertTrans t (sortTransitions rest)
      (pairwise_sortTransitions rest)

theorem perm_insertTrans (t : Transition) :
    ∀ l : List Transition, List.Perm (insertTrans t l) (t :: l)
  | [] => List.Perm.refl _
  | u :: rest => by
    unfold insertTrans
    split
    · exact List.Perm.refl _
    · exact List.Perm.trans (List.Perm.cons u (perm_insertTrans t rest))
        (List.Perm.swap t u rest)

theorem perm_sortTransitions :
    ∀ l : List Transition, List.Perm (sortTransitions l) l
  | [] => List.Perm.refl _
  | t :: rest => by
    unfold sortTransitions
    exact List.Perm.trans (perm_insertTrans t (sortTransitions rest))
      (List.Perm.cons t (perm_sortTransitions rest))

theorem popFirstUnlocked_avail :
    ∀ l : List Entry, 0 < availEntries l →
      ∃ e rest, popFirstUnlocked l = some (e, rest) ∧
        availEntries rest + 1 = availEntries l
  | [], h => absurd h (by simp [availEntries])
  | e :: rest, h => by
    by_cases hl : e.locked = true
    · have h2 : 0 < availEntries rest := by
        simpa [availEntries, List.filter_cons, hl] using h
      obtain ⟨f, rest2, hpop, hav⟩ := popFirstUnlocked_avail rest h2
      refine ⟨f, e :: rest2, ?_, ?_⟩
      · unfold popFirstUnlocked
        rw [if_pos hl, hpop]
      · simp only [availEntries, List.filter_cons, hl] at *
        simpa using hav
    · refine ⟨e, rest, ?_, ?_⟩
      · unfold popFirstUnlocked
        rw [if_neg hl]
      · simp only [availEntries, List.filter_cons, hl] at *
        simp [hl]

theorem pop_avail (q : TokenQueue) (h : 0 < q.availableCount) :
    ∃ q2 i t, q.pop = (q2, some (i, t)) ∧
      q2.availableCount + 1 = q.availableCount := by
  obtain ⟨e, rest, hpop, hav⟩ := popFirstUnlocked_avail q.queue h
  refine ⟨⟨rest, q.nextId⟩, e.id, e.token, ?_, hav⟩
  unfold TokenQueue.pop
  rw [hpop]

theorem popWeight_ok :
    ∀ (w : Nat) (q : TokenQueue) (acc : List (Nat × Token)),
      w ≤ q.availableCount → (popWeight q w acc).2.2 = true
  | 0, q, acc, _ => rfl
  | w + 1, q, acc, h => by
    obtain ⟨q2, i, t, hpop, hav⟩ := pop_avail q (by omega)
    unfold popWeight
    rw [hpop]
    exact popWeight_ok w q2 (acc ++ [(i, t)]) (by omega)

theorem storeQueue_id (p : Place) (sub : Subplace) (q : TokenQueue) :
    (p.storeQueue sub q).id = p.id := by
  unfold Place.storeQueue
  split
  · cases sub <;> rfl
  · rfl

theorem getPlace_id (n : Net) (i : String) (p : Place)
    (h : n.getPlace? i = some p) : p.id = i := by
  have h2 := List.find?_some h
  simpa using h2

theorem find_map_setPlace (p : Place) (i : String) :
    ∀ l : List Place,
      (l.map (fun q => if q.id == p.id then p else q)).find? (fun q => q.id == i) =
        (l.find? (fun q => q.id == i)).map (fun q => if q.id == p.id then p else q)
  | [] => rfl
  | q :: rest => by
    simp only [List.map_cons]
    by_cases hqi : q.id = i
    · have hpred : ((if q.id == p.id then p else q).id == i) = true := by
        by_cases hqp : q.id = p.id
        · rw [if_pos (by simp [hqp])]
          simp [← hqp, hqi]
        · rw [if_neg (by simp [hqp])]
          simp [hqi]
      rw [List.find?_cons_of_pos, List.find?_cons_of_pos]
      · simp
      · simp [hqi]
      · exact hpred
    · have hpred : ((if q.id == p.id then p else q).id == i) = false := by
        by_cases hqp : q.id = p.id
        · rw [if_pos (by simp [hqp])]
          simp [← hqp, hqi]
        · rw [if_neg (by simp [hqp])]
          simp [hqi]
      rw [List.find?_cons_of_neg, List.find?_cons_of_neg]
      · exact find_map_setPlace p i rest
      · simp [hqi]
      · simp only [hpred]
        simp

theorem getPlace_setPlace (n : Net) (p : Place) (i : String) :
    (n.setPlace p).getPlace? i =
      (n.getPlace? i).map (fun q => if q.id == p.id then p else q) := by
  unfold Net.setPlace Net.getPlace?
  exact find_map_setPlace p i n.places

theorem getPlace_setPlace_other (n : Net) (p : Place) (i : String)
    (h : p.id ≠ i) : (n.setPlace p).getPlace? i = n.getPlace? i := by
  rw [getPlace_setPlace]
  cases hg : n.getPlace? i with
  | none => rfl
  | some q =>
    have hq : q.id = i := getPlace_id n i q hg
    have hne : ¬((q.id == p.id) = true) := by
      simp [hq]
      exact fun he => h he.symm
    show some (if q.id == p.id then p else q) = some q
    rw [if_neg hne]

theorem getPlace_setPlace_isSome (n : Net) (p : Place) (i : String) :
    ((n.setPlace p).getPlace? i).isSome = (n.getPlace? i).isSome := by
  rw [getPlace_setPlace]
  cases n.getPlace? i <;> rfl

theorem getPlace_setPlace_self (n : Net) (p : Place) (i : String) (q : Place)
    (hg : n.getPlace? i = some q) (hid : p.id = i) :
    (n.setPlace p).getPlace? i = some p := by
  rw [getPlace_setPlace, hg]
  have hq : q.id = i := getPlace_id n i q hg
  show some (if q.id == p.id then p else q) = some p
  rw [if_pos (by simp [hq, hid])]

theorem consumeInputs_frame :
    ∀ (arcs : List Arc) (n : Net) (acc : List (Nat × Token)) (i : String),
      i ∉ arcs.map (fun a => a.ref.placeId) →
      (consumeInputs n arcs acc).1.getPlace? i = n.getPlace? i
  | [], _, _, _, _ => rfl
  | arc :: rest, n, acc, i, h => by
    simp only [List.map_cons, List.mem_cons, not_or] at h
    obtain ⟨h1, h2⟩ := h
    cases hg : n.getPlace? arc.ref.placeId with
    | none => simp only [consumeInputs, hg]
    | some place =>
      simp only [consumeInputs, hg]
      have hid : (place.storeQueue arc.ref.sub
          (popWeight (place.selectQueue arc.ref.sub) arc.weight acc).1).id ≠ i := by
        rw [storeQueue_id, getPlace_id n _ place hg]
        exact fun he => h1 he.symm
      split
      · rw [consumeInputs_frame rest _ _ i h2]
        exact getPlace_setPlace_other n _ i hid
      · exact getPlace_setPlace_other n _ i hid

theorem consumeInputs_isSome :
    ∀ (arcs : List Arc) (n : Net) (acc : List (Nat × Token)) (i : String),
      ((consumeInputs n arcs acc).1.getPlace? i).isSome = (n.getPlace? i).isSome
  | [], _, _, _ => rfl
  | arc :: rest, n, acc, i => by
    cases hg : n.getPlace? arc.ref.placeId with
    | none => simp only [consumeInputs, hg]
    | some place =>
      simp only [consumeInputs, hg]
      split
      · rw [consumeInputs_isSome rest _ _ i]
        exact getPlace_setPlace_isSome n _ i
      · exact getPlace_setPlace_isSome n _ i

theorem consumeInputs_ok :
    ∀ (arcs : List Arc) (n : Net) (acc : List (Nat × Token)),
      (∀ arc ∈ arcs, ∃ place, n.getPlace? arc.ref.placeId = some place ∧
        arc.weight ≤ (place.selectQueue arc.ref.sub).availableCount) →
      (arcs.map (fun a => a.ref.placeId)).Nodup →
      (consumeInputs n arcs acc).2.2 = true
  | [], _, _, _, _ => rfl
  | arc :: rest, n, acc, hin, hnd => by
    simp only [List.map_cons, List.nodup_cons] at hnd
    obtain ⟨place, hg, hw⟩ := hin arc (List.mem_cons_self arc rest)
    simp only [consumeInputs, hg]
    have hsuc : (popWeight (place.selectQueue arc.ref.sub) arc.weight acc).2.2 = true :=
      popWeight_ok _ _ _ hw
    rw [hsuc]
    simp only [if_true]
    apply consumeInputs_ok rest
    · intro a ha
      obtain ⟨pa, hga, hwa⟩ := hin a (List.mem_cons_of_mem arc ha)
      refine ⟨pa, ?_, hwa⟩
      rw [getPlace_setPlace_other]
      · exact hga
      · rw [storeQueue_id, getPlace_id n _ place hg]
        intro he
        exact hnd.1 (by rw [he]; exact List.mem_map_of_mem _ ha)
    · exact hnd.2

theorem push_avail (q : TokenQueue) (t : Token) :
    (q.push t).1.availableCount = q.availableCount + 1 := by
  simp [TokenQueue.push, TokenQueue.availableCount, List.filter_append]

theorem pushWeight_avail :
    ∀ (w : Nat) (toks : List Token) (q : TokenQueue),
      q.availableCount ≤ (pushWeight q w toks).1.availableCount
  | 0, _, q => le_refl _
  | _ + 1, [], q => le_refl _
  | w + 1, t :: ts, q => by
    unfold pushWeight
    have h1 := pushWeight_avail w ts (q.push t).1
    rw [push_avail] at h1
    omega

theorem storeQueue_avail_mono (p : Place) (sub : Subplace) (q : TokenQueue)
    (h : (p.selectQueue sub).availableCount ≤ q.availableCount) (sub2 : Subplace) :
    (p.selectQueue sub2).availableCount ≤
      ((p.storeQueue sub q).selectQueue sub2).availableCount := by
  by_cases hs : p.hasSubplaces <;>
    cases sub <;> cases sub2 <;>
      simp_all [Place.storeQueue, Place.selectQueue, Place.setSubplace, Place.subplace] <;>
      omega

theorem produceOutputs_mono :
    ∀ (arcs : List Arc) (n : Net) (toks : List Token) (i : String) (p : Place),
      n.getPlace? i = some p →
      ∃ p2, (produceOutputs n arcs toks).1.getPlace? i = some p2 ∧
        ∀ sub, (p.selectQueue sub).availableCount ≤ (p2.selectQueue sub).availableCount
  | [], n, toks, i, p, hg => ⟨p, hg, fun _ => le_refl _⟩
  | arc :: rest, n, toks, i, p, hg => by
    cases hga : n.getPlace? arc.ref.placeId with
    | none => exact ⟨p, by simp only [produceOutputs, hga]; exact hg, fun _ => le_refl _⟩
    | some place =>
      simp only [produceOutputs, hga]
      by_cases hip : arc.ref.placeId = i
      · have hpe : place = p := by
          rw [hip] at hga
          exact Option.some.inj (hga.symm.trans hg)
        subst hpe
        have hid : (place.storeQueue arc.ref.sub
            (pushWeight (place.selectQueue arc.ref.sub) arc.weight toks).1).id = i := by
          rw [storeQueue_id, getPlace_id n _ place hga, hip]
        have hg2 := getPlace_setPlace_self n _ i place
          (by rw [← hip]; exact hga) hid
        obtain ⟨p2, hgp2, hm⟩ := produceOutputs_mono rest _
          (pushWeight (place.selectQueue arc.ref.sub) arc.weight toks).2 i _ hg2
        refine ⟨p2, hgp2, fun sub2 => le_trans ?_ (hm sub2)⟩
        exact storeQueue_avail_mono place arc.ref.sub _
          (pushWeight_avail arc.weight toks (place.selectQueue arc.ref.sub)) sub2
      · have hfr := getPlace_setPlace_other n
          (place.storeQueue arc.ref.sub
            (pushWeight (place.selectQueue arc.ref.sub) arc.weight toks).1) i
          (by rw [storeQueue_id, getPlace_id n _ place hga]; exact hip)
        obtain ⟨p2, hgp2, hm⟩ := produceOutputs_mono rest _
          (pushWeight (place.selectQueue arc.ref.sub) arc.weight toks).2 i p
          (by rw [hfr]; exact hg)
        exact ⟨p2, hgp2, hm⟩

theorem produceOutputs_isSome :
    ∀ (arcs : List Arc) (n : Net) (toks : List Token) (i : String),
      ((produceOutputs n arcs toks).1.getPlace? i).isSome = (n.getPlace? i).isSome
  | [], _, _, _ => rfl
  | arc :: rest, n, toks, i => by
    cases hga : n.getPlace? arc.ref.placeId with
    | none => simp only [produceOutputs, hga]
    | some place =>
      simp only [produceOutputs, hga]
      rw [produceOutputs_isSome rest _ _ i]
      exact getPlace_setPlace_isSome n _ i

theorem produceOutputs_ok :
    ∀ (arcs : List Arc) (n : Net) (toks : List Token),
      (∀ arc ∈ arcs, (n.getPlace? arc.ref.placeId).isSome = true) →
      (produceOutputs n arcs toks).2 = true
  | [], _, _, _ => rfl
  | arc :: rest, n, toks, h => by
    obtain ⟨place, hg⟩ := Option.isSome_iff_exists.mp (h arc (List.mem_cons_self arc rest))
    simp only [produceOutputs, hg]
    apply produceOutputs_ok rest
    intro a ha
    rw [getPlace_setPlace_isSome]
    exact h a (List.mem_cons_of_mem arc ha)

theorem setTransitionEpoch_getPlace (n : Net) (tid : String) (e : Nat) (i : String) :
    (n.setTransitionEpoch tid e).getPlace? i = n.getPlace? i := rfl

theorem isEnabled_elim (n : Net) (t : Transition) (he : n.isEnabled t = true) :
    ∀ arc ∈ t.inputArcs, ∃ place, n.getPlace? arc.ref.placeId = some place ∧
      arc.weight ≤ (place.selectQueue arc.ref.sub).availableCount := by
  unfold Net.isEnabled at he
  rw [List.all_eq_true] at he
  intro arc ha
  have h2 := he arc ha
  cases hg : n.getPlace? arc.ref.placeId with
  | none => rw [hg] at h2; simp at h2
  | some place =>
    rw [hg] at h2
    refine ⟨place, rfl, ?_⟩
    simpa using h2

theorem fire_success (n : Net) (t : Transition) (epoch : Nat)
    (he : n.isEnabled t = true)
    (hnd : (t.inputArcs.map (fun a => a.ref.placeId)).Nodup)
    (hout : ∀ arc ∈ t.outputArcs, (n.getPlace? arc.ref.placeId).isSome = true) :
    (n.fire t epoch).2.success = true := by
  unfold Net.fire
  rw [if_neg (not_not_intro he)]
  have hc : (consumeInputs n t.inputArcs []).2.2 = true :=
    consumeInputs_ok t.inputArcs n [] (isEnabled_elim n t he) hnd
  have ho : (produceOutputs (consumeInputs n t.inputArcs []).1 t.outputArcs
      ((consumeInputs n t.inputArcs []).2.1.map (fun it => it.2))).2 = true := by
    apply produceOutputs_ok
    intro a ha
    rw [consumeInputs_isSome]
    exact hout a ha
  simp only [hc, ho, not_true, if_false]

theorem fire_avail_mono (n : Net) (t : Transition) (epoch : Nat) (i : String) (p : Place)
    (hi : i ∉ t.inputArcs.map (fun a => a.ref.placeId))
    (hg : n.getPlace? i = some p) :
    ∃ p2, (n.fire t epoch).1.getPlace? i = some p2 ∧
      ∀ sub, (p.selectQueue sub).availableCount ≤ (p2.selectQueue sub).availableCount := by
  unfold Net.fire
  have hcf : (consumeInputs n t.inputArcs []).1.getPlace? i = n.getPlace? i :=
    consumeInputs_frame t.inputArcs n [] i hi
  split
  · exact ⟨p, hg, fun _ => le_refl _⟩
  · simp only []
    split
    · exact ⟨p, by rw [hcf]; exact hg, fun _ => le_refl _⟩
    · obtain ⟨p2, hgp2, hm⟩ := produceOutputs_mono t.outputArcs
        (consumeInputs n t.inputArcs []).1
        ((consumeInputs n t.inputArcs []).2.1.map (fun it => it.2)) i p
        (by rw [hcf]; exact hg)
      split
      · exact ⟨p2, hgp2, hm⟩
      · exact ⟨p2, by rw [setTransitionEpoch_getPlace]; exact hgp2, hm⟩

theorem isEnabled_after_fire (n : Net) (t1 t2 : Transition) (epoch : Nat)
    (hdisj : ∀ a2 ∈ t2.inputArcs, a2.ref.placeId ∉ t1.inputArcs.map (fun a => a.ref.placeId))
    (he2 : n.isEnabled t2 = true) :
    (n.fire t1 epoch).1.isEnabled t2 = true := by
  unfold Net.isEnabled at he2 ⊢
  rw [List.all_eq_true] at he2 ⊢
  intro arc ha
  have h2 := he2 arc ha
  cases hg : n.getPlace? arc.ref.placeId with
  | none => rw [hg] at h2; simp at h2
  | some p =>
    rw [hg] at h2
    obtain ⟨p2, hgp2, hm⟩ := fire_avail_mono n t1 epoch _ p (hdisj arc ha) hg
    rw [hgp2]
    simp only [decide_eq_true_eq] at h2 ⊢
    exact le_trans h2 (hm arc.ref.sub)

theorem onTokenEnterAt_firedLog (c : RuntimeController) (pid : String) (t : Token)
    (now : Nat) : (c.onTokenEnterAt pid t now).firedLog = c.firedLog := by
  unfold RuntimeController.onTokenEnterAt RuntimeController.setPlaceType
  repeat' (first | rfl | split)

theorem drainDeliver_firedLog (pid : String) (now : Nat) :
    ∀ (fuel : Nat) (c : RuntimeController),
      (RuntimeController.drainDeliver c pid now fuel).firedLog = c.firedLog
  | 0, _ => rfl
  | fuel + 1, c => by
    cases hg : c.net.getPlace? pid with
    | none => simp only [RuntimeController.drainDeliver, hg]
    | some place =>
      simp only [RuntimeController.drainDeliver, hg]
      split
      · rfl
      · rcases hp : place.tokens.pop with ⟨q, r⟩
        simp only [hp]
        cases r with
        | none => rfl
        | some pr =>
          cases pr with
          | mk i tok =>
            rw [drainDeliver_firedLog pid now fuel _, onTokenEnterAt_firedLog]

theorem processNewTokensAtPlaces_firedLog :
    ∀ (outs : List (String × Subplace)) (c : RuntimeController) (now : Nat),
      (c.processNewTokensAtPlaces outs now).firedLog = c.firedLog
  | [], _, _ => rfl
  | out :: rest, c, now => by
    have hstep : c.processNewTokensAtPlaces (out :: rest) now =
        RuntimeController.processNewTokensAtPlaces
          (match c.net.getPlace? out.1 with
           | none => c
           | some place =>
             if c.placeTypes.any (fun kv => kv.1 == out.1) then
               if out.2 = Subplace.noSub then c.drainDeliver out.1 now place.tokens.size
               else c
             else c) rest now := rfl
    rw [hstep, processNewTokensAtPlaces_firedLog rest _ now]
    cases hg : c.net.getPlace? out.1 with
    | none => simp only [hg]
    | some place =>
      simp only [hg]
      split
      · split
        · exact drainDeliver_firedLog out.1 now place.tokens.size c
        · rfl
      · rfl

theorem fireOne_firedLog (c : RuntimeController) (now : Nat) (t : Transition) :
    (c.fireOne now t).firedLog = c.firedLog ∨
      (c.fireOne now t).firedLog = c.firedLog ++ [t] := by
  unfold RuntimeController.fireOne
  split
  · rcases hf : c.net.fire t c.stats.epoch with ⟨n2, res⟩
    simp only [hf]
    split
    · right
      rw [processNewTokensAtPlaces_firedLog]
    · left
      rfl
  · left
    rfl

theorem foldl_fireOne_firedLog (now : Nat) :
    ∀ (ts : List Transition) (c : RuntimeController),
      ∃ extra, (ts.foldl (fun c t => c.fireOne now t) c).firedLog = c.firedLog ++ extra ∧
        List.Sublist extra ts
  | [], c => ⟨[], by simp, List.nil_sublist _⟩
  | t :: ts, c => by
    simp only [List.foldl_cons]
    obtain ⟨extra, he, hs⟩ := foldl_fireOne_firedLog now ts (c.fireOne now t)
    rcases fireOne_firedLog c now t with h1 | h1
    · exact ⟨extra, by rw [he, h1], List.Sublist.cons t hs⟩
    · refine ⟨t :: extra, ?_, List.Sublist.cons₂ t hs⟩
      rw [he, h1, List.append_assoc, List.singleton_append]

theorem processNewTokensAtPlaces_empty :
    ∀ (outs : List (String × Subplace)) (c : RuntimeController) (now : Nat),
      c.placeTypes = [] → c.processNewTokensAtPlaces outs now = c
  | [], _, _, _ => rfl
  | out :: rest, c, now, hpt => by
    have hstep : c.processNewTokensAtPlaces (out :: rest) now =
        RuntimeController.processNewTokensAtPlaces
          (match c.net.getPlace? out.1 with
           | none => c
           | some place =>
             if c.placeTypes.any (fun kv => kv.1 == out.1) then
               if out.2 = Subplace.noSub then c.drainDeliver out.1 now place.tokens.size
               else c
             else c) rest now := rfl
    rw [hstep]
    have hbody : (match c.net.getPlace? out.1 with
           | none => c
           | some place =>
             if c.placeTypes.any (fun kv => kv.1 == out.1) then
               if out.2 = Subplace.noSub then c.drainDeliver out.1 now place.tokens.size
               else c
             else c) = c := by
      cases hg : c.net.getPlace? out.1 with
      | none => simp only [hg]
      | some place =>
        simp only [hg]
        rw [if_neg]
        rw [hpt]
        simp
    rw [hbody]
    exact processNewTokensAtPlaces_empty rest c now hpt

theorem fireOne_eq_of_success (c : RuntimeController) (now : Nat) (t : Transition)
    (hpt : c.placeTypes = [])
    (he : c.net.isEnabled t = true)
    (hsucc : (c.net.fire t c.stats.epoch).2.success = true) :
    c.fireOne now t =
      { c with
          net := (c.net.fire t c.stats.epoch).1
          stats := { c.stats with transitionsFired := c.stats.transitionsFired + 1 }
          firedLog := c.firedLog ++ [t] } := by
  unfold RuntimeController.fireOne
  rw [if_pos he]
  rcases hf : c.net.fire t c.stats.epoch with ⟨n2, res⟩
  have hs2 : res.success = true := by rw [hf] at hsucc; exact hsucc
  simp only [hf]
  rw [if_pos hs2]
  rw [processNewTokensAtPlaces_empty]
  exact hpt

theorem fire_isSome (n : Net) (t : Transition) (epoch : Nat) (i : String) :
    ((n.fire t epoch).1.getPlace? i).isSome = (n.getPlace? i).isSome := by
  unfold Net.fire
  split
  · rfl
  · simp only []
    split
    · exact consumeInputs_isSome t.inputArcs n [] i
    · split
      · rw [produceOutputs_isSome, consumeInputs_isSome]
      · rw [setTransitionEpoch_getPlace, produceOutputs_isSome, consumeInputs_isSome]

theorem sortTransitions_pair (T1 T2 : Transition) (hp : T2.priority < T1.priority) :
    sortTransitions [T1, T2] = [T1, T2] ∧ sortTransitions [T2, T1] = [T1, T2] := by
  have hb : transBefore T1 T2 = true := (transBefore_iff T1 T2).mpr (Or.inl hp)
  have hb2 : transBefore T2 T1 = false := transBefore_asymm T1 T2 hb
  constructor
  · show insertTrans T1 [T2] = [T1, T2]
    unfold insertTrans
    rw [if_pos hb]
  · show insertTrans T2 [T1] = [T1, T2]
    unfold insertTrans
    rw [if_neg (by simp [hb2])]
    rfl

/-- C7: transition selection order.  Within one tick (processTransitions on a
fresh fired log) the controller walks Net::getTransitionsByPriority, so the
list of fired transitions is a subsequence of that comparator-sorted list:
it carries no comparator inversion (descending priority, ascending
lastFiredEpoch within a priority band), and with distinct transition ids each
transition fires at most once per tick.  Moreover, in a two-transition net
where T1 and T2 are both enabled, T1.priority > T2.priority, the transitions
share no input place, their output places exist, inputs have distinct places,
and no behaviour map is attached, enablement is re-checked and both fire with
T1 first: the fired log is exactly [T1, T2]. -/
theorem c7_priority_order (c : RuntimeController) (now : Nat)
    (hfl : c.firedLog = [])
    (hnd : (c.net.transitions.map Transition.id).Nodup) :
    List.Sublist ((c.processTransitions now).firedLog) c.net.getTransitionsByPriority ∧
    ((c.processTransitions now).firedLog).Pairwise (fun a b => transBefore b a = false) ∧
    (∀ t : Transition, ((c.processTransitions now).firedLog).count t ≤ 1) ∧
    (∀ T1 T2 : Transition,
      (c.net.transitions = [T1, T2] ∨ c.net.transitions = [T2, T1]) →
      c.placeTypes = [] →
      T2.priority < T1.priority →
      c.net.isEnabled T1 = true →
      c.net.isEnabled T2 = true →
      (T1.inputArcs.map (fun a => a.ref.placeId)).Nodup →
      (T2.inputArcs.map (fun a => a.ref.placeId)).Nodup →
      (∀ a2 ∈ T2.inputArcs, ∀ a1 ∈ T1.inputArcs, a2.ref.placeId ≠ a1.ref.placeId) →
      (∀ arc ∈ T1.outputArcs, (c.net.getPlace? arc.ref.placeId).isSome = true) →
      (∀ arc ∈ T2.outputArcs, (c.net.getPlace? arc.ref.placeId).isSome = true) →
      (c.processTransitions now).firedLog = [T1, T2]) := by
  obtain ⟨extra, he, hs⟩ := foldl_fireOne_firedLog now c.net.getTransitionsByPriority c
  have hlog : (c.processTransitions now).firedLog = extra := by
    have h2 : (c.processTransitions now).firedLog = c.firedLog ++ extra := he
    rw [h2, hfl, List.nil_append]
  have hSnodup : c.net.getTransitionsByPriority.Nodup := by
    have h1 : c.net.transitions.Nodup := List.Nodup.of_map _ hnd
    exact ((perm_sortTransitions c.net.transitions).nodup_iff).mpr h1
  refine ⟨?_, ?_, ?_, ?_⟩
  · rw [hlog]
    exact hs
  · rw [hlog]
    exact List.Pairwise.sublist hs (pairwise_sortTransitions c.net.transitions)
  · intro t
    rw [hlog]
    exact List.nodup_iff_count_le_one.mp (List.Nodup.sublist hs hSnodup) t
  · intro T1 T2 hT hpt hp he1 he2 hnd1i hnd2i hdisj hout1 hout2
    have hS : c.net.getTransitionsByPriority = [T1, T2] := by
      unfold Net.getTransitionsByPriority
      rcases hT with h | h
      · rw [h]
        exact (sortTransitions_pair T1 T2 hp).1
      · rw [h]
        exact (sortTransitions_pair T1 T2 hp).2
    have hstep : c.processTransitions now = (c.fireOne now T1).fireOne now T2 := by
      unfold RuntimeController.processTransitions
      rw [hS]
      rfl
    have hsucc1 : (c.net.fire T1 c.stats.epoch).2.success = true :=
      fire_success c.net T1 c.stats.epoch he1 hnd1i hout1
    have hc1 : c.fireOne now T1 =
        { c with
            net := (c.net.fire T1 c.stats.epoch).1
            stats := { c.stats with transitionsFired := c.stats.transitionsFired + 1 }
            firedLog := c.firedLog ++ [T1] } :=
      fireOne_eq_of_success c now T1 hpt he1 hsucc1
    have he2' : (c.net.fire T1 c.stats.epoch).1.isEnabled T2 = true := by
      apply isEnabled_after_fire c.net T1 T2 c.stats.epoch _ he2
      intro a2 ha2 hmem
      obtain ⟨a1, ha1, heq⟩ := List.mem_map.mp hmem
      exact hdisj a2 ha2 a1 ha1 heq.symm
    have hout2' : ∀ arc ∈ T2.outputArcs,
        ((c.net.fire T1 c.stats.epoch).1.getPlace? arc.ref.placeId).isSome = true := by
      intro a ha
      rw [fire_isSome]
      exact hout2 a ha
    have hsucc2 : ((c.net.fire T1 c.stats.epoch).1.fire T2 c.stats.epoch).2.success = true :=
      fire_success _ T2 c.stats.epoch he2' hnd2i hout2'
    have hc2 := fireOne_eq_of_success
      { c with
          net := (c.net.fire T1 c.stats.epoch).1
          stats := { c.stats with transitionsFired := c.stats.transitionsFired + 1 }
          firedLog := c.firedLog ++ [T1] } now T2 hpt he2' hsucc2
    rw [hstep, hc1, hc2]
    simp [hfl]

/-- Witness for C7 on the concrete two-transition net: the hypotheses hold and
the instantiated conclusion gives the fired log [t1, t2] with the
higher-priority transition first, although the net stores them in the other
order. -/
theorem c7_priority_order_witness :
    c7Controller.firedLog = [] ∧
    (c7Controller.net.transitions.map Transition.id).Nodup ∧
    (c7Controller.processTransitions 0).firedLog = [c7T1, c7T2] :=
  ⟨rfl, by decide,
    (c7_priority_order c7Controller 0 rfl (by decide)).2.2.2 c7T1 c7T2
      (Or.inr rfl) rfl (by decide) (by decide) (by decide) (by decide) (by decide)
      (by decide) (by decide) (by decide)⟩

end BNet
